/-
Verification of the yamm mod-catalog core (src/lib/moddb.py): a shallow
embedding of the catalog data model, the catalog synchronizer
(ServiceUpdater / ModDb.update_services), the dependency resolver
(ModDependencies / ModInstance.resolve_dependencies) and the integrity
verifier (ModInstance.check_file), together with proofs about them.

Modelling conventions:
* the persistent store is a record of row lists (services, entries,
  dependency edges) plus a fresh-id counter; store-default query order is
  list order, row creation appends at the end, row update rewrites in
  place;
* manifest fetching over the network is a function from URL to
  `Option Manifest` (`none` = fetch or parse failure, which raises);
* the file system is a function from path to `Option (List Nat)`
  (file contents as bytes, `none` = unreadable file), and the streaming
  sha256+base64 digest of `create_filehash` is an abstract function from
  contents to the encoded digest string;
* fallible operations return `Option`;
* the unbounded recursion of `resolve_dependencies` is embedded with an
  explicit fuel parameter (`none` = the recursion exceeded the fuel).
-/
import Mathlib

set_option autoImplicit false
set_option linter.unusedVariables false

namespace Yamm

/-- A remote catalog source row (the `ModService` entity). -/
structure Service where
  id : Nat
  url : String
  name : String
  mirrors : List String
  deriving Repr, DecidableEq

/-- One installable package version row (the `ModEntry` entity). -/
@[ext]
structure Entry where
  id : Nat
  name : String
  serviceId : Nat
  version : String
  filename : String
  description : Option String
  filehash : Option String
  filesize : Option Nat
  homepage : Option String
  author : Option String
  deriving Repr, DecidableEq

/-- A typed relation edge row (the `ModDependency` entity): an owning
entry id, a relation kind (0 Requires, 1 Provides, 2 Conflicts,
3 Recommends) and a dependency keyword. -/
structure Dep where
  modId : Nat
  relation : Nat
  dependency : String
  deriving Repr, DecidableEq

/-- The catalog store state. -/
@[ext]
structure DB where
  services : List Service
  entries : List Entry
  deps : List Dep
  nextId : Nat
  deriving Repr, DecidableEq

/-- A package descriptor from a manifest's `mods` list.  Optional JSON
fields are `Option`s; `none` models an absent key. -/
structure ModDesc where
  name : String
  version : String
  filename : String
  description : Option String := none
  filehash : Option String := none
  filesize : Option Nat := none
  homepage : Option String := none
  author : Option String := none
  depends : Option (List String) := none
  provides : Option (List String) := none
  conflict : Option (List String) := none
  recommends : Option (List String) := none
  deriving Repr, DecidableEq

/-- A parsed service manifest. -/
structure Manifest where
  serviceName : String
  filelocations : List String
  mods : List ModDesc
  deriving Repr, DecidableEq

/-- Python truthiness of an optional string (`None` and `""` are falsy). -/
def truthyS : Option String → Bool
  | none => false
  | some s => !(s == "")

/-- Python truthiness of an optional integer (`None` and `0` are falsy). -/
def truthyN : Option Nat → Bool
  | none => false
  | some n => !(n == 0)

/-! ### Integrity verifier (`create_filehash`, `ModInstance.check_file`) -/

/-- `create_filehash`: stream the file at `path` and return its encoded
digest.  `hash` abstracts the sha256-and-base64-strip encoding of the
whole content; a missing/unreadable file raises (`none`). -/
def createFilehash (hash : List Nat → String) (fs : String → Option (List Nat))
    (path : String) : Option String :=
  (fs path).map hash

/-- `ModInstance.check_file(path, approve_if_no_dbhash)`: if the entry's
stored `filehash` is truthy, compare a freshly computed digest with it;
otherwise return the flag.  `none` models a raised exception (only
possible while reading the file). -/
def checkFile (hash : List Nat → String) (fs : String → Option (List Nat))
    (e : Entry) (path : String) (approve : Bool) : Option Bool :=
  if truthyS e.filehash then
    (createFilehash hash fs path).map (fun h => h == e.filehash.getD "")
  else
    some approve

/-! ### Resolution record (`ModDependencies`) -/

/-- A `(provider, source, relation)` triple as appended by
`ModDependencies.add_dependency`. -/
abbrev Triple := Entry × Entry × Nat

/-- The `depmap`: a keyword-keyed map, modelled as an association list.
The source is Python 2, where dict (and defaultdict) key iteration order
is determined by the interpreter's hash table, not by the program text;
this model therefore fixes one definite but arbitrary key-enumeration
order (list order) as a modelling device.  Every theorem below about the
program is insensitive to that order except where noted. -/
abbrev Record := List (String × List Triple)

/-- The keywords of a record, in the model's enumeration order. -/
def recordKeys (r : Record) : List String := r.map Prod.fst

/-- `ModDependencies.add_dependency(tag, provider, relation, source)`:
append `(provider, source, relation)` to `depmap[tag]`, creating the key
on first use.  The model places a new key at the end of the association
list; in the Python 2 source the key's position in dict iteration order
is hash-determined, so this placement is a modelling choice, not a
program property. -/
def addDependency : Record → String → Entry → Nat → Entry → Record
  | [], tag, prov, rel, src => [(tag, [(prov, src, rel)])]
  | (k, ts) :: rest, tag, prov, rel, src =>
    if k == tag then (k, ts ++ [(prov, src, rel)]) :: rest
    else (k, ts) :: addDependency rest tag prov rel src

/-- `ModDependencies._filter`: keep the triples of the given relation. -/
def filterRel (ts : List Triple) (rel : Nat) : List Triple :=
  ts.filter (fun t => t.2.2 == rel)

/-- `ModDependencies.simple_get_mods(relation)`: walk the keywords in
the record's iteration order (here the model's enumeration order) and
pick the first surviving triple's provider for each keyword that has
one. -/
def simpleGetMods : Record → Nat → List Entry
  | [], _ => []
  | (_, ts) :: rest, rel =>
    match filterRel ts rel with
    | [] => simpleGetMods rest rel
    | t :: _ => t.1 :: simpleGetMods rest rel

/-! ### Dependency resolver (`ModInstance`) -/

/-- `ModInstance.get_dependency_info(relation)`: the dependency keywords
of the entry's edges of the given kind, in store order. -/
def getDependencyInfo (db : DB) (e : Entry) (rel : Nat) : List String :=
  (db.deps.filter (fun d => d.modId == e.id && d.relation == rel)).map
    (fun d => d.dependency)

/-- The provider query of `resolve_dependencies`: the Provides edge rows
whose keyword equals `kw`, in store order. -/
def providerRows (db : DB) (kw : String) : List Dep :=
  db.deps.filter (fun d => d.relation == 1 && d.dependency == kw)

/-- Fetch an entry row by id. -/
def lookupEntry (db : DB) (i : Nat) : Option Entry :=
  db.entries.find? (fun e => e.id == i)

/-- The candidate provider entries for a keyword: each Provides edge row's
owning entry (`entry.mod`). -/
def providerEntries (db : DB) (kw : String) : List Entry :=
  (providerRows db kw).filterMap (fun d => lookupEntry db d.modId)

/-- The inner `for entry in entries` loop of `resolve_dependencies`:
append `(provider, source, relation)` to `record[kw]` and hand the record
to the recursive call `rE` for each candidate provider in turn. -/
def resolveProvsF (rE : Entry → Record → Option Record) (kw : String) (rel : Nat)
    (src : Entry) : List Entry → Record → Option Record
  | [], r => some r
  | p :: rest, r =>
    match rE p (addDependency r kw p rel src) with
    | none => none
    | some r' => resolveProvsF rE kw rel src rest r'

/-- The outer `for dep in deps` loop of `resolve_dependencies`: process
each keyword's candidate providers in turn (an empty candidate list only
logs a warning and moves on). -/
def resolveKwsF (db : DB) (rE : Entry → Record → Option Record) (rel : Nat)
    (src : Entry) : List String → Record → Option Record
  | [], r => some r
  | kw :: rest, r =>
    match resolveProvsF rE kw rel src (providerEntries db kw) r with
    | none => none
    | some r' => resolveKwsF db rE rel src rest r'

/-- `ModInstance.resolve_dependencies(relation, depsObject)` with explicit
fuel.  The recursive call on a provider passes only the shared record, so
it runs with the DEFAULT relation kind 0 (Requires), exactly as
`i.resolve_dependencies(depsObject=depsObject)` does in the source. -/
def resolveEntry (db : DB) : Nat → Entry → Nat → Record → Option Record
  | 0, _, _, _ => none
  | fuel + 1, e, rel, r =>
    resolveKwsF db (fun p r' => resolveEntry db fuel p 0 r') rel e
      (getDependencyInfo db e rel) r

/-- `ModInstance.get_dependency_mods()`:
`resolve_dependencies().simple_get_mods(0)` (both at the default
relation 0). -/
def getDependencyMods (db : DB) (fuel : Nat) (e : Entry) : Option (List Entry) :=
  (resolveEntry db fuel e 0 []).map (fun r => simpleGetMods r 0)

/-- Modelled from the claim sentence of C1 (not from the source): the
resolver as the claim describes it, whose recursive call on a candidate
provider expands the provider's edges OF THE SAME relation kind as the
current call. -/
def resolveClaimC1 (db : DB) : Nat → Entry → Nat → Record → Option Record
  | 0, _, _, _ => none
  | fuel + 1, e, rel, r =>
    resolveKwsF db (fun p r' => resolveClaimC1 db fuel p rel r') rel e
      (getDependencyInfo db e rel) r

/-- Modelled from the amended claim sentence of C1: for every keyword of
the root's edges of kind `rel`, and for every candidate provider of that
keyword, append `(provider, root, rel)` to the record and recurse
unconditionally — with no visited set or cycle guard — where the
recursive call always expands the provider's edges of the default kind 0
(Requires), regardless of `rel`. -/
def resolveAmendedC1 (db : DB) : Nat → Entry → Nat → Record → Option Record
  | 0, _, _, _ => none
  | fuel + 1, e, rel, r =>
    (getDependencyInfo db e rel).foldlM
      (fun r1 kw =>
        (providerEntries db kw).foldlM
          (fun r2 p => resolveAmendedC1 db fuel p 0 (addDependency r2 kw p rel e))
          r1)
      r

/-! ### Catalog synchronizer (`ServiceUpdater`, `ModDb.update_services`) -/

/-- The `ModEntry.get(name=..., service=...)` lookup: the first entry row
matching the upsert key. -/
def findEntry (db : DB) (n : String) (sid : Nat) : Option Entry :=
  db.entries.find? (fun e => e.name == n && e.serviceId == sid)

/-- Persist an updated entry row: rewrite the row with the same id. -/
def replaceById (es : List Entry) (e : Entry) : List Entry :=
  es.map (fun x => if x.id == e.id then e else x)

/-- A freshly created entry row carrying only the upsert key. -/
def baseEntry (i : Nat) (n : String) (sid : Nat) : Entry :=
  ⟨i, n, sid, "", "", none, none, none, none, none⟩

/-- `ModEntry.get_or_create(name=..., service=...)`: find the row with
that key, or create one with a fresh id; the Bool reports creation. -/
def getOrCreate (db : DB) (n : String) (sid : Nat) : DB × Entry × Bool :=
  match findEntry db n sid with
  | some e => (db, e, false)
  | none =>
    let e := baseEntry db.nextId n sid
    ({ db with entries := db.entries ++ [e], nextId := db.nextId + 1 }, e, true)

/-- The field assignments of `save_mod_instance`: version, filename and
the service reference unconditionally; each optional field only when the
descriptor's value is present and truthy. -/
def applyDesc (sid : Nat) (m : ModDesc) (e : Entry) : Entry :=
  { e with
    version := m.version
    filename := m.filename
    serviceId := sid
    description := if truthyS m.description then m.description else e.description
    filehash := if truthyS m.filehash then m.filehash else e.filehash
    filesize := if truthyN m.filesize then m.filesize else e.filesize
    homepage := if truthyS m.homepage then m.homepage else e.homepage
    author := if truthyS m.author then m.author else e.author }

/-- `ServiceUpdater.save_mod_instance(mod)`: upsert the entry row and
save it. -/
def saveModInstance (db : DB) (sid : Nat) (m : ModDesc) : DB × Entry × Bool :=
  let dec := getOrCreate db m.name sid
  let e1 := applyDesc sid m dec.2.1
  ({ dec.1 with entries := replaceById dec.1.entries e1 }, e1, dec.2.2)

/-- `ServiceUpdater.set_dependency_relation(modentry, dependencies,
relation)`: delete every edge of that (entry, kind), then create one edge
per keyword. -/
def setDependencyRelation (db : DB) (e : Entry) (rel : Nat) (kws : List String) : DB :=
  { db with
    deps := db.deps.filter (fun d => !(d.modId == e.id && d.relation == rel)) ++
      kws.map (fun k => ⟨e.id, rel, k⟩) }

/-- One iteration of the `update_mods` loop: upsert the entry, then
resync the four relation kinds (Requires from `depends`, Provides from
the entry's own name plus `provides`, Conflicts from `conflict`,
Recommends from `recommends`; an absent list defaults to empty). -/
def processDesc (db : DB) (sid : Nat) (m : ModDesc) : DB × Bool :=
  let smi := saveModInstance db sid m
  let e := smi.2.1
  let db2 := setDependencyRelation smi.1 e 0 (m.depends.getD [])
  let db3 := setDependencyRelation db2 e 1 (e.name :: m.provides.getD [])
  let db4 := setDependencyRelation db3 e 2 (m.conflict.getD [])
  let db5 := setDependencyRelation db4 e 3 (m.recommends.getD [])
  (db5, smi.2.2)

/-- `ServiceUpdater.update_mods(modlist)` with the `new`/`updated`
counters threaded explicitly. -/
def updateMods : DB → Nat → List ModDesc → Nat → Nat → DB × Nat × Nat
  | db, _, [], n, u => (db, n, u)
  | db, sid, m :: rest, n, u =>
    let pd := processDesc db sid m
    if pd.2 then updateMods pd.1 sid rest (n + 1) u
    else updateMods pd.1 sid rest n (u + 1)

/-- Persist an updated service row. -/
def saveService (db : DB) (s : Service) : DB :=
  { db with services := db.services.map (fun x => if x.id == s.id then s else x) }

/-- `ServiceUpdater.update()`: fetch and parse the manifest (propagating
a fetch/parse failure), persist the service block, then synchronize the
package list. -/
def serviceUpdate (net : String → Option Manifest) (db : DB) (s : Service) :
    Option DB :=
  match net s.url with
  | none => none
  | some man =>
    let db1 := saveService db { s with name := man.serviceName,
                                       mirrors := man.filelocations }
    some (updateMods db1 s.id man.mods 0 0).1

/-- The body of the `update_services` loop: synchronize each service in
turn, propagating the first failure. -/
def runServices (net : String → Option Manifest) : DB → List Service → Option DB
  | db, [] => some db
  | db, s :: rest =>
    match serviceUpdate net db s with
    | none => none
    | some db' => runServices net db' rest

/-- Modelled from the spec: the catalog store's atomic transaction
primitive (`db.transaction()` comes from the external `storage` module,
which is not part of the embedded sources).  All writes of the unit of
work become visible together on success; an exception inside rolls every
write back and propagates (the Bool reports that an exception escaped). -/
def transactionRun (db : DB) (act : DB → Option DB) : DB × Bool :=
  match act db with
  | some db' => (db', false)
  | none => (db, true)

/-- `ModDb.update_services()`: run every registered service's
synchronization inside one store transaction. -/
def updateServices (net : String → Option Manifest) (db : DB) : DB × Bool :=
  transactionRun db (fun s => runServices net s s.services)

/-- The store well-formedness maintained by the synchronizer: entry ids
are below the fresh-id counter, pairwise distinct, and the (name,
service) upsert keys are unique. -/
def WfDB (db : DB) : Prop :=
  (∀ e ∈ db.entries, e.id < db.nextId) ∧
  (db.entries.map (fun e => e.id)).Nodup ∧
  (db.entries.map (fun e => (e.name, e.serviceId))).Nodup

/-! ### Characterization helpers for the synchronizer proofs -/

/-- The four edge blocks one descriptor pass writes for the entry with
id `i`, in creation order (Requires, Provides with the injected
self-keyword, Conflicts, Recommends). -/
def blocksOf (i : Nat) (m : ModDesc) : List Dep :=
  (m.depends.getD []).map (fun k => ⟨i, 0, k⟩) ++
  (m.name :: m.provides.getD []).map (fun k => ⟨i, 1, k⟩) ++
  (m.conflict.getD []).map (fun k => ⟨i, 2, k⟩) ++
  (m.recommends.getD []).map (fun k => ⟨i, 3, k⟩)

/-- Rows a descriptor pass for the entry with id `i` deletes: the four
synchronized relation kinds of that entry. -/
def ownsRow (i : Nat) (d : Dep) : Bool :=
  d.modId == i && decide (d.relation < 4)

/-- The edge-list effect of one descriptor pass, with the processed
entry's id given by `ident`. -/
def depStep (ident : ModDesc → Nat) (ds : List Dep) (m : ModDesc) : List Dep :=
  ds.filter (fun d => !ownsRow (ident m) d) ++ blocksOf (ident m) m

/-- The edge-list effect of a whole descriptor list. -/
def depRun (ident : ModDesc → Nat) (ds : List Dep) (l : List ModDesc) : List Dep :=
  l.foldl (depStep ident) ds

/-- A row owned by none of the descriptors in `l`. -/
def freeOfAll (ident : ModDesc → Nat) (l : List ModDesc) (d : Dep) : Bool :=
  l.all (fun m => !ownsRow (ident m) d)

/-- The appended blocks surviving to the end of a descriptor list. -/
def tailBlocks (ident : ModDesc → Nat) : List ModDesc → List Dep
  | [] => []
  | m :: rest => (blocksOf (ident m) m).filter (freeOfAll ident rest) ++
      tailBlocks ident rest

/-- The id of the entry a descriptor resolves to in a given store. -/
def identOf (db : DB) (sid : Nat) (m : ModDesc) : Nat :=
  match findEntry db m.name sid with
  | some e => e.id
  | none => 0

/-- Whether a descriptor's upsert key matches an entry row. -/
def keyMatchB (sid : Nat) (e : Entry) (m : ModDesc) : Bool :=
  e.name == m.name && e.serviceId == sid

/-- The per-field update folds of repeated `save_mod_instance` passes. -/
def updVersion (a : String) (m : ModDesc) : String := m.version

/-- See `updVersion`. -/
def updFilename (a : String) (m : ModDesc) : String := m.filename

/-- See `updVersion`. -/
def updServiceId (sid : Nat) (a : Nat) (m : ModDesc) : Nat := sid

/-- See `updVersion`. -/
def updDescription (a : Option String) (m : ModDesc) : Option String :=
  if truthyS m.description then m.description else a

/-- See `updVersion`. -/
def updFilehash (a : Option String) (m : ModDesc) : Option String :=
  if truthyS m.filehash then m.filehash else a

/-- See `updVersion`. -/
def updFilesize (a : Option Nat) (m : ModDesc) : Option Nat :=
  if truthyN m.filesize then m.filesize else a

/-- See `updVersion`. -/
def updHomepage (a : Option String) (m : ModDesc) : Option String :=
  if truthyS m.homepage then m.homepage else a

/-- See `updVersion`. -/
def updAuthor (a : Option String) (m : ModDesc) : Option String :=
  if truthyS m.author then m.author else a

/-! ### Reachability and acyclicity of the provide/require graph -/

/-- One resolver expansion step between entries: `p` provides some
keyword required by `e` (at the default kind 0 used by the recursion). -/
def EStep (db : DB) (e p : Entry) : Prop :=
  ∃ kw, kw ∈ getDependencyInfo db e 0 ∧ p ∈ providerEntries db kw

/-- The provide/require graph is acyclic: no entry expands back to
itself in one or more steps. -/
def Acyclic (db : DB) : Prop :=
  ∀ e, ¬ Relation.TransGen (EStep db) e e

/-- All expansion paths out of `e` are shorter than `n`. -/
inductive Ht (db : DB) : Entry → Nat → Prop
  | step {e : Entry} {n : Nat} : (∀ p, EStep db e p → Ht db p n) → Ht db e (n + 1)

/-- The keywords the depth-first walk from `root` reaches through
Requires edges: the root's own required keywords, and the required
keywords of any provider of an already-reached keyword. -/
inductive ReachKw (db : DB) (root : Entry) : String → Prop
  | base {kw : String} : kw ∈ getDependencyInfo db root 0 → ReachKw db root kw
  | step {kw : String} {p : Entry} {kw' : String} : ReachKw db root kw →
      p ∈ providerEntries db kw → kw' ∈ getDependencyInfo db p 0 →
      ReachKw db root kw'

/-- The record invariant maintained by a default-relation resolution
walk: keys are pairwise distinct, every key's triple list is nonempty,
and every recorded triple carries relation kind 0. -/
def GoodR (r : Record) : Prop :=
  (recordKeys r).Nodup ∧ (∀ kv ∈ r, kv.2 ≠ []) ∧
  (∀ kv ∈ r, ∀ t ∈ kv.2, t.2.2 = 0)

/-! ### Concrete stores and inputs used to instantiate the theorems -/

/-- The empty store. -/
def emptyDB : DB := ⟨[], [], [], 0⟩

/-- A minimal entry row. -/
def mkE (i : Nat) (n : String) : Entry :=
  ⟨i, n, 1, "", "", none, none, none, none, none⟩

/-- A store exercising a non-Requires top-level resolution: the root has
a Conflicts edge to "k"; its provider has both a Requires edge ("k2")
and a Conflicts edge ("k3"), each with its own provider. -/
def exDb : DB :=
  ⟨[], [mkE 1 "root", mkE 2 "p", mkE 3 "q", mkE 4 "s"],
   [⟨1, 2, "k"⟩, ⟨2, 1, "k"⟩, ⟨2, 0, "k2"⟩, ⟨2, 2, "k3"⟩, ⟨3, 1, "k2"⟩,
    ⟨4, 1, "k3"⟩], 5⟩

/-- The root entry of `exDb`. -/
def exRoot : Entry := mkE 1 "root"

/-- An abstract digest function for the verifier instances. -/
def wHash : List Nat → String := fun c => if c == [1] then "D" else "X"

/-- A file system where every path holds the bytes `[1]`. -/
def wFs : String → Option (List Nat) := fun _ => some [1]

/-- A second digest function, for the noninterference instance. -/
def wHash2 : List Nat → String := fun _ => "Z"

/-- A file system with no readable files. -/
def wFs2 : String → Option (List Nat) := fun _ => none

/-- An entry with a stored reference digest. -/
def wEntryHashed : Entry := ⟨1, "m", 1, "1", "f", none, some "D", none, none, none⟩

/-- An entry with no stored reference digest. -/
def wEntryNoHash : Entry := ⟨2, "n", 1, "1", "g", none, none, none, none, none⟩

/-- A service whose manifest fetch succeeds. -/
def wSvcA : Service := ⟨1, "ua", "", []⟩

/-- A service whose manifest fetch fails. -/
def wSvcB : Service := ⟨2, "ub", "", []⟩

/-- A network serving only `wSvcA`'s manifest. -/
def wNet : String → Option Manifest :=
  fun u => if u == "ua" then some ⟨"A", [], []⟩ else none

/-- A store registering `wSvcA` and `wSvcB`. -/
def wDbC3 : DB := ⟨[wSvcA, wSvcB], [], [], 10⟩

/-- The store visible after `wSvcA`'s synchronization succeeded. -/
def wDbC3A : DB := ⟨[⟨1, "ua", "A", []⟩, wSvcB], [], [], 10⟩

/-- A descriptor whose manifest mentions no `provides` list at all. -/
def wDescCore : ModDesc := { name := "core", version := "1", filename := "c.zip" }

/-- A stored entry about to be re-synchronized. -/
def wEntryOld : Entry :=
  ⟨1, "m", 3, "0", "old", some "X", none, none, none, none⟩

/-- A store holding `wEntryOld`. -/
def wDbC6 : DB := ⟨[], [wEntryOld], [], 5⟩

/-- A re-sync descriptor for `wEntryOld` omitting every optional field. -/
def wDescC6 : ModDesc := { name := "m", version := "2", filename := "new" }

/-- A store with one entry requiring an unprovided keyword. -/
def wDbC9 : DB := ⟨[], [mkE 1 "a"], [⟨1, 0, "x"⟩], 2⟩

/-- The root entry of `wDbC9`. -/
def wRootC9 : Entry := mkE 1 "a"

/-! ## Theorems -/

/-! ### Generic list helpers -/

theorem map_eq_self_of {α : Type} {l : List α} {f : α → α}
    (h : ∀ x ∈ l, f x = x) : l.map f = l := by
  have := List.map_congr_left h
  simpa using this

theorem foldl_replay {α : Type} (upd : α → ModDesc → α) :
    ∀ l : List ModDesc,
      (∀ m ∈ l, (∀ a b, upd a m = upd b m) ∨ (∀ a, upd a m = a)) →
      ∀ a, List.foldl upd (List.foldl upd a l) l = List.foldl upd a l := by
  intro l
  induction l with
  | nil => intro _ a; rfl
  | cons m rest ih =>
    intro h a
    have hrest : ∀ m' ∈ rest, (∀ a b, upd a m' = upd b m') ∨ (∀ a, upd a m' = a) :=
      fun m' hm' => h m' (List.mem_cons_of_mem _ hm')
    rcases h m (List.mem_cons_self _ _) with hconst | hskip
    · show List.foldl upd (upd (List.foldl upd (upd a m) rest) m) rest = _
      rw [hconst (List.foldl upd (upd a m) rest) a, List.foldl_cons]
    · show List.foldl upd (upd (List.foldl upd (upd a m) rest) m) rest = _
      rw [hskip (List.foldl upd (upd a m) rest), List.foldl_cons]
      exact ih hrest (upd a m)

/-! ### Integrity verifier: C8 and C10 -/

/-- C8: when the entry carries a (truthy) stored digest, `check_file`
returns `true` exactly when the freshly computed digest of the readable
file equals the stored digest, and a mismatch is a normal `false`, not an
exception; when the entry carries no digest, it returns the supplied
flag verbatim. -/
theorem checkFile_c8 (hash : List Nat → String) (fs : String → Option (List Nat))
    (path : String) (e : Entry) (approve : Bool) (c : List Nat)
    (hread : fs path = some c) :
    (truthyS e.filehash = true →
      (checkFile hash fs e path approve = some true ↔ hash c = e.filehash.getD "") ∧
      checkFile hash fs e path approve ≠ none) ∧
    (truthyS e.filehash = false →
      checkFile hash fs e path approve = some approve) := by
  constructor
  · intro ht
    constructor
    · simp [checkFile, ht, createFilehash, hread]
    · simp [checkFile, ht, createFilehash, hread]
  · intro hf
    simp [checkFile, hf]

theorem checkFile_c8_witness :
    (truthyS wEntryHashed.filehash = true →
      (checkFile wHash wFs wEntryHashed "p" false = some true ↔
        wHash [1] = wEntryHashed.filehash.getD "") ∧
      checkFile wHash wFs wEntryHashed "p" false ≠ none) ∧
    (truthyS wEntryHashed.filehash = false →
      checkFile wHash wFs wEntryHashed "p" false = some false) :=
  checkFile_c8 wHash wFs "p" wEntryHashed false [1] rfl

/-- C10: when the entry carries no stored reference digest, `check_file`
never reads the file: the result is the flag verbatim, identical across
any two digest functions, file systems and paths. -/
theorem checkFile_noread_c10 (hash hash' : List Nat → String)
    (fs fs' : String → Option (List Nat)) (path path' : String) (e : Entry)
    (approve : Bool) (hnod : truthyS e.filehash = false) :
    checkFile hash fs e path approve = some approve ∧
    checkFile hash fs e path approve = checkFile hash' fs' e path' approve := by
  constructor
  · simp [checkFile, hnod]
  · simp [checkFile, hnod]

theorem checkFile_noread_c10_witness :
    checkFile wHash wFs wEntryNoHash "p" true = some true ∧
    checkFile wHash wFs wEntryNoHash "p" true =
      checkFile wHash2 wFs2 wEntryNoHash "q" true :=
  checkFile_noread_c10 wHash wHash2 wFs wFs2 "p" "q" wEntryNoHash true rfl

/-! ### Relation resync: C5 -/

/-- C5: a relation resync fully replaces the (entry, kind) edge set: the
entry's edges of that kind afterwards are exactly one edge per keyword of
the newly declared list, no earlier edge of that kind survives, and every
other edge of the store is untouched. -/
theorem setDependencyRelation_c5 (db : DB) (e : Entry) (rel : Nat)
    (kws : List String) :
    (setDependencyRelation db e rel kws).deps.filter
        (fun d => d.modId == e.id && d.relation == rel) =
      kws.map (fun k => ⟨e.id, rel, k⟩) ∧
    (setDependencyRelation db e rel kws).deps.filter
        (fun d => !(d.modId == e.id && d.relation == rel)) =
      db.deps.filter (fun d => !(d.modId == e.id && d.relation == rel)) := by
  have hnew : ∀ d ∈ kws.map (fun k => (⟨e.id, rel, k⟩ : Dep)),
      (d.modId == e.id && d.relation == rel) = true := by
    intro d hd
    obtain ⟨k, hk, rfl⟩ := List.mem_map.mp hd
    simp
  constructor
  · rw [setDependencyRelation, List.filter_append]
    have h1 : (db.deps.filter (fun d => !(d.modId == e.id && d.relation == rel))).filter
        (fun d => d.modId == e.id && d.relation == rel) = [] := by
      apply List.filter_eq_nil_iff.mpr
      intro d hd
      have := (List.mem_filter.mp hd).2
      simp only [Bool.not_eq_true'] at this
      simp [this]
    have h2 := List.filter_eq_self.mpr hnew
    rw [h1, h2, List.nil_append]
  · rw [setDependencyRelation, List.filter_append]
    have h1 : (db.deps.filter (fun d => !(d.modId == e.id && d.relation == rel))).filter
        (fun d => !(d.modId == e.id && d.relation == rel)) =
        db.deps.filter (fun d => !(d.modId == e.id && d.relation == rel)) := by
      apply List.filter_eq_self.mpr
      intro d hd
      exact (List.mem_filter.mp hd).2
    have h2 : (kws.map (fun k => (⟨e.id, rel, k⟩ : Dep))).filter
        (fun d => !(d.modId == e.id && d.relation == rel)) = [] := by
      apply List.filter_eq_nil_iff.mpr
      intro d hd
      simp [hnew d hd]
    rw [h1, h2, List.append_nil]

/-! ### Entry upsert: C6 -/

theorem find?_replaceById (es : List Entry) (e e1 : Entry) (p : Entry → Bool)
    (hnodup : (es.map (fun x => x.id)).Nodup)
    (hfind : es.find? p = some e) (hid : e1.id = e.id) (hp : p e1 = true) :
    (replaceById es e1).find? p = some e1 := by
  induction es with
  | nil => simp [List.find?] at hfind
  | cons x rest ih =>
    have hnodup' : (rest.map (fun x => x.id)).Nodup := (List.nodup_cons.mp hnodup).2
    cases h : p x with
    | true =>
      rw [List.find?_cons_of_pos _ h] at hfind
      have hx : x = e := by injection hfind
      subst hx
      have hcond : (x.id == e1.id) = true := by simp [hid]
      show ((x :: rest).map fun y => if y.id == e1.id then e1 else y).find? p = some e1
      simp only [List.map_cons, hcond, if_pos rfl]
      rw [if_pos (by simp [hid])]
      exact List.find?_cons_of_pos _ hp
    | false =>
      rw [List.find?_cons_of_neg _ (by simp [h])] at hfind
      have hmem : e ∈ rest := List.mem_of_find?_eq_some hfind
      have hxid : x.id ≠ e.id := by
        intro hcontra
        have : x.id ∈ rest.map (fun y => y.id) := by
          rw [hcontra]
          exact List.mem_map.mpr ⟨e, hmem, rfl⟩
        exact (List.nodup_cons.mp hnodup).1 this
      show ((x :: rest).map fun y => if y.id == e1.id then e1 else y).find? p = some e1
      simp only [List.map_cons]
      rw [if_neg (by simp [hid]; exact hxid)]
      rw [List.find?_cons_of_neg _ (by simp [h])]
      exact ih hnodup' hfind

/-- C6: on an upsert of a descriptor whose key already has a stored
entry, version, filename and the service reference are set
unconditionally, while each optional field is overwritten exactly when
the incoming value is present and truthy and is otherwise left at its
previously stored value; the updated row is what the store then holds
for that key. -/
theorem saveModInstance_c6 (db : DB) (sid : Nat) (m : ModDesc) (e : Entry)
    (hwf : WfDB db) (hfind : findEntry db m.name sid = some e) :
    (saveModInstance db sid m).2.2 = false ∧
    (saveModInstance db sid m).2.1.version = m.version ∧
    (saveModInstance db sid m).2.1.filename = m.filename ∧
    (saveModInstance db sid m).2.1.serviceId = sid ∧
    (saveModInstance db sid m).2.1.description =
      (if truthyS m.description then m.description else e.description) ∧
    (saveModInstance db sid m).2.1.filehash =
      (if truthyS m.filehash then m.filehash else e.filehash) ∧
    (saveModInstance db sid m).2.1.filesize =
      (if truthyN m.filesize then m.filesize else e.filesize) ∧
    (saveModInstance db sid m).2.1.homepage =
      (if truthyS m.homepage then m.homepage else e.homepage) ∧
    (saveModInstance db sid m).2.1.author =
      (if truthyS m.author then m.author else e.author) ∧
    findEntry (saveModInstance db sid m).1 m.name sid =
      some (saveModInstance db sid m).2.1 := by
  have hkey : (e.name == m.name && e.serviceId == sid) = true := by
    have h0 := hfind
    rw [findEntry] at h0
    have h1 := List.find?_some h0
    simpa using h1
  have hsmi : saveModInstance db sid m =
      ({ db with entries := replaceById db.entries (applyDesc sid m e) },
        applyDesc sid m e, false) := by
    rw [saveModInstance, getOrCreate, hfind]
  rw [hsmi]
  refine ⟨rfl, rfl, rfl, rfl, rfl, rfl, rfl, rfl, rfl, ?_⟩
  show findEntry { db with entries := replaceById db.entries (applyDesc sid m e) }
      m.name sid = some (applyDesc sid m e)
  rw [findEntry]
  have hname : e.name = m.name := by
    simp only [Bool.and_eq_true, beq_iff_eq] at hkey
    exact hkey.1
  exact find?_replaceById db.entries e (applyDesc sid m e) _ hwf.2.1 hfind rfl
    (by simp [applyDesc, hname])

theorem saveModInstance_c6_witness :
    (saveModInstance wDbC6 3 wDescC6).2.2 = false ∧
    (saveModInstance wDbC6 3 wDescC6).2.1.version = wDescC6.version ∧
    (saveModInstance wDbC6 3 wDescC6).2.1.filename = wDescC6.filename ∧
    (saveModInstance wDbC6 3 wDescC6).2.1.serviceId = 3 ∧
    (saveModInstance wDbC6 3 wDescC6).2.1.description =
      (if truthyS wDescC6.description then wDescC6.description
       else wEntryOld.description) ∧
    (saveModInstance wDbC6 3 wDescC6).2.1.filehash =
      (if truthyS wDescC6.filehash then wDescC6.filehash else wEntryOld.filehash) ∧
    (saveModInstance wDbC6 3 wDescC6).2.1.filesize =
      (if truthyN wDescC6.filesize then wDescC6.filesize else wEntryOld.filesize) ∧
    (saveModInstance wDbC6 3 wDescC6).2.1.homepage =
      (if truthyS wDescC6.homepage then wDescC6.homepage else wEntryOld.homepage) ∧
    (saveModInstance wDbC6 3 wDescC6).2.1.author =
      (if truthyS wDescC6.author then wDescC6.author else wEntryOld.author) ∧
    findEntry (saveModInstance wDbC6 3 wDescC6).1 wDescC6.name 3 =
      some (saveModInstance wDbC6 3 wDescC6).2.1 :=
  saveModInstance_c6 wDbC6 3 wDescC6 wEntryOld
    ⟨by decide, by decide, by decide⟩ (by decide)

/-! ### Batch synchronization: C3 -/

theorem runServices_append (net : String → Option Manifest) :
    ∀ (l1 l2 : List Service) (db : DB),
      runServices net db (l1 ++ l2) =
        match runServices net db l1 with
        | none => none
        | some d => runServices net d l2 := by
  intro l1
  induction l1 with
  | nil => intro l2 db; rfl
  | cons s rest ih =>
    intro l2 db
    show runServices net db (s :: (rest ++ l2)) = _
    rw [runServices]
    cases h : serviceUpdate net db s with
    | none => simp [runServices, h]
    | some db' => simp [runServices, h, ih]

/-- C3: `update_services` runs every registered service's
synchronization inside one store transaction: if any service's manifest
fetch fails — even after earlier services in the batch synchronized
successfully — no write of the run is committed (the store is exactly
the initial one); if no service fails, all accumulated writes commit
together. -/
theorem updateServices_c3 (net : String → Option Manifest) (db : DB) :
    (∀ pre b post dbPre, db.services = pre ++ b :: post →
      runServices net db pre = some dbPre → net b.url = none →
      updateServices net db = (db, true)) ∧
    (∀ dbf, runServices net db db.services = some dbf →
      updateServices net db = (dbf, false)) := by
  constructor
  · intro pre b post dbPre hs hpre hfail
    have hrun : runServices net db db.services = none := by
      rw [hs, runServices_append, hpre]
      show runServices net dbPre (b :: post) = none
      rw [runServices]
      simp [serviceUpdate, hfail]
    rw [updateServices, transactionRun]
    simp [hrun]
  · intro dbf h
    rw [updateServices, transactionRun]
    simp [h]

theorem updateServices_c3_witness :
    updateServices wNet wDbC3 = (wDbC3, true) :=
  (updateServices_c3 wNet wDbC3).1 [wSvcA] wSvcB [] wDbC3A (by decide)
    (by decide) (by decide)

/-! ### Recursion relation kind: C1 -/

theorem foldlM_congr_opt {α β : Type} (f g : β → α → Option β) (l : List α)
    (h : ∀ b a, f b a = g b a) : ∀ b, l.foldlM f b = l.foldlM g b := by
  induction l with
  | nil => intro b; rfl
  | cons a rest ih =>
    intro b
    rw [List.foldlM_cons, List.foldlM_cons, h b a]
    cases g b a with
    | none => rfl
    | some b' => simp [ih]

theorem resolveProvsF_eq_foldlM (rE : Entry → Record → Option Record)
    (kw : String) (rel : Nat) (src : Entry) :
    ∀ (provs : List Entry) (r : Record),
      resolveProvsF rE kw rel src provs r =
        provs.foldlM (fun r2 p => rE p (addDependency r2 kw p rel src)) r := by
  intro provs
  induction provs with
  | nil => intro r; rfl
  | cons p rest ih =>
    intro r
    rw [resolveProvsF, List.foldlM_cons]
    cases h : rE p (addDependency r kw p rel src) with
    | none => rfl
    | some r' => simp [ih]

theorem resolveKwsF_eq_foldlM (db : DB) (rE : Entry → Record → Option Record)
    (rel : Nat) (src : Entry) :
    ∀ (kws : List String) (r : Record),
      resolveKwsF db rE rel src kws r =
        kws.foldlM (fun r1 kw =>
          (providerEntries db kw).foldlM
            (fun r2 p => rE p (addDependency r2 kw p rel src)) r1) r := by
  intro kws
  induction kws with
  | nil => intro r; rfl
  | cons kw rest ih =>
    intro r
    rw [resolveKwsF, List.foldlM_cons, ← resolveProvsF_eq_foldlM]
    cases h : resolveProvsF rE kw rel src (providerEntries db kw) r with
    | none => rfl
    | some r' => simp [ih]

/-- C1 (amended): `resolve_dependencies(relation, record)` walks the
root's edges of the requested kind, appends `(provider, root, relation)`
to `record[keyword]` for every candidate provider and recurses on the
provider unconditionally, with no visited set or cycle guard — but the
recursive call always expands the provider's edges of the DEFAULT kind 0
(Requires), not of the caller's kind. -/
theorem resolve_recursion_kind_c1 (db : DB) :
    ∀ (fuel : Nat) (e : Entry) (rel : Nat) (r : Record),
      resolveEntry db fuel e rel r = resolveAmendedC1 db fuel e rel r := by
  intro fuel
  induction fuel with
  | zero => intro e rel r; rfl
  | succ f ih =>
    intro e rel r
    show resolveKwsF db (fun p r' => resolveEntry db f p 0 r') rel e
        (getDependencyInfo db e rel) r = _
    rw [resolveKwsF_eq_foldlM, resolveAmendedC1]
    apply foldlM_congr_opt
    intro r1 kw
    apply foldlM_congr_opt
    intro r2 p
    exact ih p 0 (addDependency r2 kw p rel e)

/-- C1 counterexample: at relation kind 2 (Conflicts) the source
resolver expands the provider's Requires edges (recording "k2"), while a
resolver that recursed with the same kind — as the claim states — would
expand the provider's Conflicts edges (recording "k3"); the two results
differ on `exDb`. -/
theorem resolve_recursion_kind_c1_counterexample :
    (resolveEntry exDb 5 exRoot 2 []).map recordKeys = some ["k", "k2"] ∧
    (resolveClaimC1 exDb 5 exRoot 2 []).map recordKeys = some ["k", "k3"] ∧
    resolveEntry exDb 5 exRoot 2 [] ≠ resolveClaimC1 exDb 5 exRoot 2 [] := by
  refine ⟨by decide, by decide, by decide⟩

/-! ### Structural lemmas about one descriptor pass -/

theorem nodup_append_singleton {α : Type} {l : List α} {a : α} (h1 : l.Nodup)
    (h2 : a ∉ l) : (l ++ [a]).Nodup := by
  rw [List.nodup_append]
  refine ⟨h1, List.nodup_singleton a, ?_⟩
  intro x hx
  simp only [List.mem_singleton]
  intro hxa
  exact h2 (hxa ▸ hx)

theorem eq_of_id_eq {es : List Entry} (hnodup : (es.map (fun x => x.id)).Nodup) :
    ∀ x ∈ es, ∀ y ∈ es, x.id = y.id → x = y := by
  induction es with
  | nil => intro x hx; simp at hx
  | cons z rest ih =>
    have hz : z.id ∉ rest.map (fun x => x.id) := (List.nodup_cons.mp hnodup).1
    have hrest := (List.nodup_cons.mp hnodup).2
    intro x hx y hy hxy
    rcases List.mem_cons.mp hx with rfl | hx' <;>
      rcases List.mem_cons.mp hy with rfl | hy'
    · rfl
    · exact absurd (hxy ▸ List.mem_map.mpr ⟨y, hy', rfl⟩) hz
    · exact absurd (hxy ▸ List.mem_map.mpr ⟨x, hx', rfl⟩) hz
    · exact ih hrest x hx' y hy' hxy

theorem eq_of_key_eq {es : List Entry}
    (hnodup : (es.map (fun x => (x.name, x.serviceId))).Nodup) :
    ∀ x ∈ es, ∀ y ∈ es, x.name = y.name → x.serviceId = y.serviceId → x = y := by
  induction es with
  | nil => intro x hx; simp at hx
  | cons z rest ih =>
    have hz : (z.name, z.serviceId) ∉ rest.map (fun x => (x.name, x.serviceId)) :=
      (List.nodup_cons.mp hnodup).1
    have hrest := (List.nodup_cons.mp hnodup).2
    intro x hx y hy hn hs
    rcases List.mem_cons.mp hx with rfl | hx' <;>
      rcases List.mem_cons.mp hy with rfl | hy'
    · rfl
    · exact absurd (List.mem_map.mpr ⟨y, hy', by rw [← hn, ← hs]⟩) hz
    · exact absurd (List.mem_map.mpr ⟨x, hx', by rw [hn, hs]⟩) hz
    · exact ih hrest x hx' y hy' hn hs

theorem find?_map_of_pred_inv {es : List Entry} {p : Entry → Bool}
    {f : Entry → Entry} (h : ∀ x ∈ es, p (f x) = p x) :
    (es.map f).find? p = (es.find? p).map f := by
  induction es with
  | nil => rfl
  | cons x rest ih =>
    have hx := h x (List.mem_cons_self _ _)
    have hrest : ∀ y ∈ rest, p (f y) = p y :=
      fun y hy => h y (List.mem_cons_of_mem _ hy)
    cases hp : p x with
    | true =>
      rw [List.map_cons, List.find?_cons_of_pos _ (hx.trans hp),
        List.find?_cons_of_pos _ hp]
      rfl
    | false =>
      rw [List.map_cons, List.find?_cons_of_neg _ (by simp [hx, hp]),
        List.find?_cons_of_neg _ (by simp [hp])]
      exact ih hrest

theorem saveModInstance_found {db : DB} {sid : Nat} {m : ModDesc} {e : Entry}
    (hfind : findEntry db m.name sid = some e) :
    saveModInstance db sid m =
      ({ db with entries := replaceById db.entries (applyDesc sid m e) },
        applyDesc sid m e, false) := by
  rw [saveModInstance, getOrCreate, hfind]

theorem saveModInstance_notfound {db : DB} {sid : Nat} {m : ModDesc}
    (hfind : findEntry db m.name sid = none) (hwf : WfDB db) :
    saveModInstance db sid m =
      ({ db with
          entries := db.entries ++
            [applyDesc sid m (baseEntry db.nextId m.name sid)],
          nextId := db.nextId + 1 },
        applyDesc sid m (baseEntry db.nextId m.name sid), true) := by
  rw [saveModInstance, getOrCreate, hfind]
  have hrepl : replaceById (db.entries ++ [baseEntry db.nextId m.name sid])
      (applyDesc sid m (baseEntry db.nextId m.name sid)) =
      db.entries ++ [applyDesc sid m (baseEntry db.nextId m.name sid)] := by
    rw [replaceById, List.map_append]
    have h1 : db.entries.map (fun x =>
        if x.id == (applyDesc sid m (baseEntry db.nextId m.name sid)).id then
          applyDesc sid m (baseEntry db.nextId m.name sid) else x) = db.entries := by
      apply map_eq_self_of
      intro x hx
      have hlt : x.id < db.nextId := hwf.1 x hx
      have : (x.id == (applyDesc sid m (baseEntry db.nextId m.name sid)).id) = false := by
        simp only [applyDesc, baseEntry]
        simp only [beq_eq_false_iff_ne, ne_eq]
        omega
      rw [this]
      rfl
    have h2 : ([baseEntry db.nextId m.name sid].map (fun x =>
        if x.id == (applyDesc sid m (baseEntry db.nextId m.name sid)).id then
          applyDesc sid m (baseEntry db.nextId m.name sid) else x)) =
        [applyDesc sid m (baseEntry db.nextId m.name sid)] := by
      simp [applyDesc, baseEntry]
    rw [h1, h2]
  simp only [hrepl]

theorem saveModInstance_name (db : DB) (sid : Nat) (m : ModDesc) :
    (saveModInstance db sid m).2.1.name = m.name := by
  cases hfind : findEntry db m.name sid with
  | some e =>
    rw [saveModInstance_found hfind]
    have h0 := hfind
    rw [findEntry] at h0
    have h1 := List.find?_some h0
    simp only [Bool.and_eq_true, beq_iff_eq] at h1
    simpa [applyDesc] using h1.1
  | none =>
    rw [saveModInstance, getOrCreate, hfind]
    rfl

theorem saveModInstance_sid (db : DB) (sid : Nat) (m : ModDesc) :
    (saveModInstance db sid m).2.1.serviceId = sid := by
  cases hfind : findEntry db m.name sid with
  | some e => rw [saveModInstance_found hfind]; rfl
  | none => rw [saveModInstance, getOrCreate, hfind]; rfl

theorem replaceById_keyform {db : DB} {sid : Nat} {m : ModDesc} {e : Entry}
    (hwf : WfDB db) (hfind : findEntry db m.name sid = some e) :
    replaceById db.entries (applyDesc sid m e) =
      db.entries.map (fun x => if keyMatchB sid x m then applyDesc sid m x else x) := by
  have h0 := hfind
  rw [findEntry] at h0
  have hmem : e ∈ db.entries := List.mem_of_find?_eq_some h0
  have hkey := List.find?_some h0
  simp only [Bool.and_eq_true, beq_iff_eq] at hkey
  rw [replaceById]
  apply List.map_congr_left
  intro x hx
  by_cases hid : x.id = (applyDesc sid m e).id
  · have hxe : x = e := eq_of_id_eq hwf.2.1 x hx e hmem (by simpa [applyDesc] using hid)
    subst hxe
    have hk : keyMatchB sid x m = true := by
      simp [keyMatchB, hkey.1, hkey.2]
    rw [if_pos (by simp [hid]), if_pos hk]
  · have hk : keyMatchB sid x m = false := by
      by_contra hcontra
      have hk' : keyMatchB sid x m = true := by
        cases h : keyMatchB sid x m
        · exact absurd h hcontra
        · rfl
      simp only [keyMatchB, Bool.and_eq_true, beq_iff_eq] at hk'
      have hxe : x = e := eq_of_key_eq hwf.2.2 x hx e hmem
        (hk'.1.trans hkey.1.symm) (hk'.2.trans hkey.2.symm)
      exact hid (by rw [hxe]; simp [applyDesc])
    rw [if_neg (by simpa [applyDesc] using hid), if_neg (by simp [hk])]

theorem saveModInstance_proj (db : DB) (sid : Nat) (m : ModDesc) :
    (saveModInstance db sid m).1.services = db.services ∧
    (saveModInstance db sid m).1.deps = db.deps := by
  cases hfind : findEntry db m.name sid with
  | some e => rw [saveModInstance_found hfind]; exact ⟨rfl, rfl⟩
  | none => rw [saveModInstance, getOrCreate, hfind]; exact ⟨rfl, rfl⟩

theorem processDesc_entries (db : DB) (sid : Nat) (m : ModDesc) :
    (processDesc db sid m).1.entries = (saveModInstance db sid m).1.entries ∧
    (processDesc db sid m).1.services = (saveModInstance db sid m).1.services ∧
    (processDesc db sid m).1.nextId = (saveModInstance db sid m).1.nextId ∧
    (processDesc db sid m).2 = (saveModInstance db sid m).2.2 :=
  ⟨rfl, rfl, rfl, rfl⟩

theorem filter_filter_mine {α : Type} (p q : α → Bool) (l : List α) :
    (l.filter p).filter q = l.filter (fun a => p a && q a) := by
  induction l with
  | nil => rfl
  | cons a rest ih =>
    cases hp : p a <;> cases hq : q a <;>
      simp [List.filter_cons, hp, hq, ih]

theorem filter_map_const_rel (i i' c c' : Nat) (ks : List String)
    (hcc : (c == c') = false) :
    (ks.map (fun k => (⟨i, c, k⟩ : Dep))).filter
        (fun d => !(d.modId == i' && d.relation == c')) =
      ks.map (fun k => ⟨i, c, k⟩) := by
  apply List.filter_eq_self.mpr
  intro d hd
  obtain ⟨k, hk, rfl⟩ := List.mem_map.mp hd
  simp [hcc]

theorem filter_chain (ds : List Dep) (i : Nat) :
    (((ds.filter (fun d => !(d.modId == i && d.relation == 0))).filter
        (fun d => !(d.modId == i && d.relation == 1))).filter
        (fun d => !(d.modId == i && d.relation == 2))).filter
        (fun d => !(d.modId == i && d.relation == 3)) =
      ds.filter (fun d => !ownsRow i d) := by
  rw [filter_filter_mine, filter_filter_mine, filter_filter_mine]
  apply List.filter_congr
  intro d hd
  rcases d with ⟨mid, rel, kw⟩
  cases hmod : (mid == i) with
  | false => simp [ownsRow, hmod]
  | true =>
    simp only [ownsRow, hmod, Bool.true_and]
    rcases Nat.lt_or_ge rel 4 with h | h
    · interval_cases rel <;> rfl
    · have h0 : (rel == 0) = false := beq_eq_false_iff_ne.mpr (by omega)
      have h1 : (rel == 1) = false := beq_eq_false_iff_ne.mpr (by omega)
      have h2 : (rel == 2) = false := beq_eq_false_iff_ne.mpr (by omega)
      have h3 : (rel == 3) = false := beq_eq_false_iff_ne.mpr (by omega)
      have h4 : decide (rel < 4) = false := decide_eq_false_iff_not.mpr (by omega)
      simp [h0, h1, h2, h3, h4]

theorem processDesc_deps (db : DB) (sid : Nat) (m : ModDesc) :
    (processDesc db sid m).1.deps =
      db.deps.filter (fun d => !ownsRow (saveModInstance db sid m).2.1.id d) ++
        blocksOf (saveModInstance db sid m).2.1.id m := by
  have hname : (saveModInstance db sid m).2.1.name = m.name :=
    saveModInstance_name db sid m
  have hdeps : (saveModInstance db sid m).1.deps = db.deps :=
    (saveModInstance_proj db sid m).2
  show (setDependencyRelation (setDependencyRelation (setDependencyRelation
      (setDependencyRelation (saveModInstance db sid m).1
        (saveModInstance db sid m).2.1 0 (m.depends.getD []))
      (saveModInstance db sid m).2.1 1
        ((saveModInstance db sid m).2.1.name :: m.provides.getD []))
      (saveModInstance db sid m).2.1 2 (m.conflict.getD []))
      (saveModInstance db sid m).2.1 3 (m.recommends.getD [])).deps = _
  simp only [setDependencyRelation, hdeps, hname]
  rw [List.filter_append, List.filter_append, List.filter_append,
    List.filter_append, List.filter_append, List.filter_append]
  rw [filter_map_const_rel _ _ 0 1 _ (by decide),
    filter_map_const_rel _ _ 0 2 _ (by decide),
    filter_map_const_rel _ _ 0 3 _ (by decide),
    filter_map_const_rel _ _ 1 2 _ (by decide),
    filter_map_const_rel _ _ 1 3 _ (by decide),
    filter_map_const_rel _ _ 2 3 _ (by decide)]
  rw [filter_chain]
  rw [blocksOf]
  simp [List.append_assoc]

theorem wf_processDesc {db : DB} (sid : Nat) (m : ModDesc) (hwf : WfDB db) :
    WfDB (processDesc db sid m).1 := by
  have hent := (processDesc_entries db sid m).1
  have hnext := (processDesc_entries db sid m).2.2.1
  cases hfind : findEntry db m.name sid with
  | some e =>
    rw [saveModInstance_found hfind] at hent hnext
    simp only at hent hnext
    rw [replaceById_keyform hwf hfind] at hent
    have hids : (processDesc db sid m).1.entries.map (fun x => x.id) =
        db.entries.map (fun x => x.id) := by
      rw [hent, List.map_map]
      apply List.map_congr_left
      intro x hx
      by_cases hk : keyMatchB sid x m = true
      · simp [hk, applyDesc]
      · simp [Bool.eq_false_iff.mpr hk]
    have hkeys : (processDesc db sid m).1.entries.map
        (fun x => (x.name, x.serviceId)) =
        db.entries.map (fun x => (x.name, x.serviceId)) := by
      rw [hent, List.map_map]
      apply List.map_congr_left
      intro x hx
      by_cases hk : keyMatchB sid x m = true
      · have hx_sid : x.serviceId = sid := by
          simp only [keyMatchB, Bool.and_eq_true, beq_iff_eq] at hk
          exact hk.2
        simp [hk, applyDesc, hx_sid]
      · simp [Bool.eq_false_iff.mpr hk]
    refine ⟨?_, ?_, ?_⟩
    · intro x hx
      rw [hent] at hx
      obtain ⟨y, hy, rfl⟩ := List.mem_map.mp hx
      rw [hnext]
      by_cases hk : keyMatchB sid y m = true
      · simpa [hk, applyDesc] using hwf.1 y hy
      · simpa [Bool.eq_false_iff.mpr hk] using hwf.1 y hy
    · rw [hids]; exact hwf.2.1
    · rw [hkeys]; exact hwf.2.2
  | none =>
    rw [saveModInstance_notfound hfind hwf] at hent hnext
    simp only at hent hnext
    have hnone := hfind
    rw [findEntry] at hnone
    have hkey_absent : ∀ x ∈ db.entries,
        ¬(x.name = m.name ∧ x.serviceId = sid) := by
      intro x hx hcontra
      have := List.find?_eq_none.mp hnone x hx
      simp only [Bool.and_eq_true, beq_iff_eq] at this
      exact this ⟨hcontra.1, hcontra.2⟩
    refine ⟨?_, ?_, ?_⟩
    · intro x hx
      rw [hent] at hx
      rw [hnext]
      rcases List.mem_append.mp hx with hx' | hx'
      · have := hwf.1 x hx'
        omega
      · simp only [List.mem_singleton] at hx'
        subst hx'
        simp [applyDesc, baseEntry]
    · rw [hent, List.map_append]
      simp only [List.map_cons, List.map_nil]
      apply nodup_append_singleton hwf.2.1
      intro hcontra
      obtain ⟨y, hy, hyid⟩ := List.mem_map.mp hcontra
      have hlt := hwf.1 y hy
      have hid0 : (applyDesc sid m (baseEntry db.nextId m.name sid)).id =
          db.nextId := rfl
      rw [hid0] at hyid
      omega
    · rw [hent, List.map_append]
      simp only [List.map_cons, List.map_nil]
      apply nodup_append_singleton hwf.2.2
      intro hcontra
      obtain ⟨y, hy, hykey⟩ := List.mem_map.mp hcontra
      have hkey0 : ((applyDesc sid m (baseEntry db.nextId m.name sid)).name,
          (applyDesc sid m (baseEntry db.nextId m.name sid)).serviceId) =
          (m.name, sid) := rfl
      rw [hkey0] at hykey
      exact hkey_absent y hy ⟨congrArg Prod.fst hykey, congrArg Prod.snd hykey⟩

theorem findEntry_processDesc_self {db : DB} {sid : Nat} {m : ModDesc}
    (hwf : WfDB db) :
    findEntry (processDesc db sid m).1 m.name sid =
      some (saveModInstance db sid m).2.1 := by
  have hent := (processDesc_entries db sid m).1
  cases hfind : findEntry db m.name sid with
  | some e =>
    rw [saveModInstance_found hfind] at hent ⊢
    simp only at hent ⊢
    have h0 := hfind
    rw [findEntry] at h0
    have hkey := List.find?_some h0
    simp only [Bool.and_eq_true, beq_iff_eq] at hkey
    rw [findEntry, hent]
    exact find?_replaceById db.entries e (applyDesc sid m e) _ hwf.2.1 h0 rfl
      (by simp [applyDesc, hkey.1])
  | none =>
    rw [saveModInstance_notfound hfind hwf] at hent ⊢
    simp only at hent ⊢
    have h0 := hfind
    rw [findEntry] at h0
    rw [findEntry, hent, List.find?_append, h0]
    simp [applyDesc, baseEntry]

theorem keyStable_processDesc {db : DB} {sid : Nat} {m : ModDesc}
    {n : String} {sid' : Nat} {e : Entry} (hwf : WfDB db)
    (hfind : findEntry db n sid' = some e) :
    ∃ e', findEntry (processDesc db sid m).1 n sid' = some e' ∧
      e'.id = e.id ∧ e'.name = e.name ∧ e'.serviceId = e.serviceId := by
  have hent := (processDesc_entries db sid m).1
  have h0 := hfind
  rw [findEntry] at h0
  have hemem : e ∈ db.entries := List.mem_of_find?_eq_some h0
  cases hfindm : findEntry db m.name sid with
  | some eF =>
    rw [saveModInstance_found hfindm] at hent
    simp only at hent
    have hF0 := hfindm
    rw [findEntry] at hF0
    have hFmem : eF ∈ db.entries := List.mem_of_find?_eq_some hF0
    have hFkey := List.find?_some hF0
    simp only [Bool.and_eq_true, beq_iff_eq] at hFkey
    have hpinv : ∀ x ∈ db.entries,
        ((fun y => y.name == n && y.serviceId == sid')
          (if x.id == (applyDesc sid m eF).id then applyDesc sid m eF else x)) =
        ((fun y => y.name == n && y.serviceId == sid') x) := by
      intro x hx
      by_cases hid : (x.id == (applyDesc sid m eF).id) = true
      · have hxeF : x = eF := eq_of_id_eq hwf.2.1 x hx eF hFmem
          (by simpa [applyDesc] using hid)
        subst hxeF
        rw [if_pos hid]
        simp [applyDesc, hFkey.2]
      · rw [if_neg hid]
    have hfind' : (processDesc db sid m).1.entries.find?
        (fun y => y.name == n && y.serviceId == sid') =
        some (if e.id == (applyDesc sid m eF).id then applyDesc sid m eF else e) := by
      rw [hent, replaceById]
      rw [find?_map_of_pred_inv hpinv, h0]
      rfl
    refine ⟨_, by rw [findEntry]; exact hfind', ?_, ?_, ?_⟩
    · by_cases hid : (e.id == (applyDesc sid m eF).id) = true
      · rw [if_pos hid]
        have h' : e.id = eF.id := by simpa [applyDesc] using hid
        simp [applyDesc, h']
      · rw [if_neg hid]
    · by_cases hid : (e.id == (applyDesc sid m eF).id) = true
      · have hxeF : e = eF := eq_of_id_eq hwf.2.1 e hemem eF hFmem
          (by simpa [applyDesc] using hid)
        rw [if_pos hid, hxeF]
        simp [applyDesc]
      · rw [if_neg hid]
    · by_cases hid : (e.id == (applyDesc sid m eF).id) = true
      · have hxeF : e = eF := eq_of_id_eq hwf.2.1 e hemem eF hFmem
          (by simpa [applyDesc] using hid)
        rw [if_pos hid, hxeF]
        simp [applyDesc, hFkey.2]
      · rw [if_neg hid]
  | none =>
    rw [saveModInstance_notfound hfindm hwf] at hent
    simp only at hent
    refine ⟨e, ?_, rfl, rfl, rfl⟩
    rw [findEntry, hent, List.find?_append, h0]
    rfl

theorem updateMods_cons (db : DB) (sid : Nat) (m : ModDesc) (rest : List ModDesc)
    (n u : Nat) :
    updateMods db sid (m :: rest) n u =
      updateMods (processDesc db sid m).1 sid rest
        (if (processDesc db sid m).2 then n + 1 else n)
        (if (processDesc db sid m).2 then u else u + 1) := by
  rw [updateMods]
  cases h : (processDesc db sid m).2 <;> simp [h]

theorem wf_run (sid : Nat) : ∀ (l : List ModDesc) (db : DB) (n u : Nat),
    WfDB db → WfDB (updateMods db sid l n u).1 := by
  intro l
  induction l with
  | nil => intro db n u hwf; exact hwf
  | cons m rest ih =>
    intro db n u hwf
    rw [updateMods_cons]
    exact ih _ _ _ (wf_processDesc sid m hwf)

theorem keyStable_run (sid : Nat) : ∀ (l : List ModDesc) (db : DB) (n u : Nat)
    (nm : String) (sid' : Nat) (e : Entry), WfDB db →
    findEntry db nm sid' = some e →
    ∃ e', findEntry (updateMods db sid l n u).1 nm sid' = some e' ∧
      e'.id = e.id ∧ e'.name = e.name ∧ e'.serviceId = e.serviceId := by
  intro l
  induction l with
  | nil => intro db n u nm sid' e hwf hfind; exact ⟨e, hfind, rfl, rfl, rfl⟩
  | cons m rest ih =>
    intro db n u nm sid' e hwf hfind
    rw [updateMods_cons]
    obtain ⟨e1, hfind1, hid1, hnm1, hsid1⟩ := keyStable_processDesc hwf hfind
    obtain ⟨e2, hfind2, hid2, hnm2, hsid2⟩ :=
      ih _ _ _ nm sid' e1 (wf_processDesc sid m hwf) hfind1
    exact ⟨e2, hfind2, hid2.trans hid1, hnm2.trans hnm1, hsid2.trans hsid1⟩

theorem keyExists_run (sid : Nat) : ∀ (l : List ModDesc) (db : DB) (n u : Nat),
    WfDB db → ∀ mm ∈ l,
    ∃ e', findEntry (updateMods db sid l n u).1 mm.name sid = some e' := by
  intro l
  induction l with
  | nil => intro db n u hwf mm hmm; simp at hmm
  | cons m rest ih =>
    intro db n u hwf mm hmm
    rw [updateMods_cons]
    rcases List.mem_cons.mp hmm with rfl | hmm'
    · obtain ⟨e2, hfind2, _, _, _⟩ := keyStable_run sid rest _ _ _ mm.name sid _
        (wf_processDesc sid mm hwf) (findEntry_processDesc_self hwf)
      exact ⟨e2, hfind2⟩
    · exact ih _ _ _ (wf_processDesc sid m hwf) mm hmm'

theorem updateMods_services (sid : Nat) : ∀ (l : List ModDesc) (db : DB) (n u : Nat),
    (updateMods db sid l n u).1.services = db.services := by
  intro l
  induction l with
  | nil => intro db n u; rfl
  | cons m rest ih =>
    intro db n u
    rw [updateMods_cons, ih]
    rw [(processDesc_entries db sid m).2.1, (saveModInstance_proj db sid m).1]

theorem deps_char_run (sid : Nat) : ∀ (l : List ModDesc) (db : DB) (n u : Nat),
    WfDB db →
    (updateMods db sid l n u).1.deps =
      depRun (identOf (updateMods db sid l n u).1 sid) db.deps l := by
  intro l
  induction l with
  | nil => intro db n u hwf; rfl
  | cons m rest ih =>
    intro db n u hwf
    rw [updateMods_cons]
    have hwf' := wf_processDesc sid m hwf
    have hIH := ih (processDesc db sid m).1
      (if (processDesc db sid m).2 then n + 1 else n)
      (if (processDesc db sid m).2 then u else u + 1) hwf'
    rw [hIH]
    have hfin : identOf (updateMods (processDesc db sid m).1 sid rest
        (if (processDesc db sid m).2 then n + 1 else n)
        (if (processDesc db sid m).2 then u else u + 1)).1 sid m =
        (saveModInstance db sid m).2.1.id := by
      obtain ⟨e2, hfind2, hid2, _, _⟩ := keyStable_run sid rest _ _ _ m.name sid _
        hwf' (findEntry_processDesc_self hwf)
      rw [identOf, hfind2]
      exact hid2
    have hstep : (processDesc db sid m).1.deps =
        depStep (identOf (updateMods (processDesc db sid m).1 sid rest
          (if (processDesc db sid m).2 then n + 1 else n)
          (if (processDesc db sid m).2 then u else u + 1)).1 sid) db.deps m := by
      rw [processDesc_deps, depStep, hfin]
    have hruncons : depRun (identOf (updateMods (processDesc db sid m).1 sid rest
        (if (processDesc db sid m).2 then n + 1 else n)
        (if (processDesc db sid m).2 then u else u + 1)).1 sid) db.deps (m :: rest) =
        depRun (identOf (updateMods (processDesc db sid m).1 sid rest
          (if (processDesc db sid m).2 then n + 1 else n)
          (if (processDesc db sid m).2 then u else u + 1)).1 sid)
          (depStep (identOf (updateMods (processDesc db sid m).1 sid rest
            (if (processDesc db sid m).2 then n + 1 else n)
            (if (processDesc db sid m).2 then u else u + 1)).1 sid) db.deps m)
          rest := rfl
    rw [hruncons, ← hstep]

/-! ### The edge-list fold: characterization and idempotence -/

theorem freeOfAll_cons (ident : ModDesc → Nat) (m : ModDesc) (l : List ModDesc)
    (d : Dep) :
    freeOfAll ident (m :: l) d = (!ownsRow (ident m) d && freeOfAll ident l d) := by
  simp [freeOfAll, List.all_cons]

theorem depRun_char (ident : ModDesc → Nat) :
    ∀ (l : List ModDesc) (ds : List Dep),
      depRun ident ds l = ds.filter (freeOfAll ident l) ++ tailBlocks ident l := by
  intro l
  induction l with
  | nil =>
    intro ds
    show ds = ds.filter _ ++ []
    rw [List.append_nil]
    symm
    apply List.filter_eq_self.mpr
    intro d hd
    rfl
  | cons m rest ih =>
    intro ds
    show depRun ident (depStep ident ds m) rest = _
    rw [ih, depStep, List.filter_append, filter_filter_mine, tailBlocks]
    have hcongr : ds.filter
        (fun a => (!ownsRow (ident m) a) && freeOfAll ident rest a) =
        ds.filter (freeOfAll ident (m :: rest)) := by
      apply List.filter_congr
      intro d hd
      rw [freeOfAll_cons]
    rw [hcongr, List.append_assoc]

theorem blocksOf_owned (i : Nat) (m : ModDesc) :
    ∀ d ∈ blocksOf i m, ownsRow i d = true := by
  intro d hd
  rw [blocksOf] at hd
  rcases List.mem_append.mp hd with hd' | hd'
  · rcases List.mem_append.mp hd' with hd'' | hd''
    · rcases List.mem_append.mp hd'' with hd3 | hd3
      · obtain ⟨k, hk, rfl⟩ := List.mem_map.mp hd3
        simp [ownsRow]
      · obtain ⟨k, hk, rfl⟩ := List.mem_map.mp hd3
        simp [ownsRow]
    · obtain ⟨k, hk, rfl⟩ := List.mem_map.mp hd''
      simp [ownsRow]
  · obtain ⟨k, hk, rfl⟩ := List.mem_map.mp hd'
    simp [ownsRow]

theorem tailBlocks_mem (ident : ModDesc → Nat) :
    ∀ (l : List ModDesc), ∀ d ∈ tailBlocks ident l,
      ∃ m ∈ l, ownsRow (ident m) d = true := by
  intro l
  induction l with
  | nil => intro d hd; simp [tailBlocks] at hd
  | cons m rest ih =>
    intro d hd
    rw [tailBlocks] at hd
    rcases List.mem_append.mp hd with hd' | hd'
    · exact ⟨m, List.mem_cons_self _ _,
        blocksOf_owned _ _ _ (List.mem_filter.mp hd').1⟩
    · obtain ⟨m', hm', hown⟩ := ih d hd'
      exact ⟨m', List.mem_cons_of_mem _ hm', hown⟩

theorem depRun_idem (ident : ModDesc → Nat) (l : List ModDesc) (ds : List Dep) :
    depRun ident (depRun ident ds l) l = depRun ident ds l := by
  rw [depRun_char, depRun_char, List.filter_append]
  have h1 : (ds.filter (freeOfAll ident l)).filter (freeOfAll ident l) =
      ds.filter (freeOfAll ident l) :=
    List.filter_eq_self.mpr (fun d hd => (List.mem_filter.mp hd).2)
  have h2 : (tailBlocks ident l).filter (freeOfAll ident l) = [] := by
    apply List.filter_eq_nil_iff.mpr
    intro d hd
    obtain ⟨m, hm, hown⟩ := tailBlocks_mem ident l d hd
    have : freeOfAll ident l d = false :=
      List.all_eq_false.mpr ⟨m, hm, by simp [hown]⟩
    simp [this]
  rw [h1, h2, List.append_nil]

theorem depRun_congr (ident1 ident2 : ModDesc → Nat) :
    ∀ (l : List ModDesc) (ds : List Dep), (∀ m ∈ l, ident1 m = ident2 m) →
      depRun ident1 ds l = depRun ident2 ds l := by
  intro l
  induction l with
  | nil => intro ds h; rfl
  | cons m rest ih =>
    intro ds h
    show depRun ident1 (depStep ident1 ds m) rest = depRun ident2 (depStep ident2 ds m) rest
    have hm := h m (List.mem_cons_self _ _)
    rw [depStep, depStep, hm]
    exact ih _ (fun m' hm' => h m' (List.mem_cons_of_mem _ hm'))

/-! ### The entry fold: decomposition and idempotence -/

theorem applyDesc_fold_decomp (sid : Nat) :
    ∀ (ms : List ModDesc) (e : Entry),
      List.foldl (fun a mm => applyDesc sid mm a) e ms =
        ⟨e.id, e.name,
          List.foldl (updServiceId sid) e.serviceId ms,
          List.foldl updVersion e.version ms,
          List.foldl updFilename e.filename ms,
          List.foldl updDescription e.description ms,
          List.foldl updFilehash e.filehash ms,
          List.foldl updFilesize e.filesize ms,
          List.foldl updHomepage e.homepage ms,
          List.foldl updAuthor e.author ms⟩ := by
  intro ms
  induction ms with
  | nil => intro e; rfl
  | cons mm rest ih =>
    intro e
    rw [List.foldl_cons, ih (applyDesc sid mm e)]
    rfl

theorem applyDesc_fold_idem (sid : Nat) (ms : List ModDesc) (e : Entry) :
    List.foldl (fun a mm => applyDesc sid mm a)
        (List.foldl (fun a mm => applyDesc sid mm a) e ms) ms =
      List.foldl (fun a mm => applyDesc sid mm a) e ms := by
  have hS : ∀ mm ∈ ms, (∀ a b : Nat, updServiceId sid a mm = updServiceId sid b mm) ∨
      (∀ a, updServiceId sid a mm = a) := fun mm _ => Or.inl (fun a b => rfl)
  have hV : ∀ mm ∈ ms, (∀ a b : String, updVersion a mm = updVersion b mm) ∨
      (∀ a, updVersion a mm = a) := fun mm _ => Or.inl (fun a b => rfl)
  have hF : ∀ mm ∈ ms, (∀ a b : String, updFilename a mm = updFilename b mm) ∨
      (∀ a, updFilename a mm = a) := fun mm _ => Or.inl (fun a b => rfl)
  have hD : ∀ mm ∈ ms, (∀ a b : Option String,
      updDescription a mm = updDescription b mm) ∨ (∀ a, updDescription a mm = a) := by
    intro mm _
    cases h : truthyS mm.description
    · exact Or.inr (fun a => by simp [updDescription, h])
    · exact Or.inl (fun a b => by simp [updDescription, h])
  have hH : ∀ mm ∈ ms, (∀ a b : Option String,
      updFilehash a mm = updFilehash b mm) ∨ (∀ a, updFilehash a mm = a) := by
    intro mm _
    cases h : truthyS mm.filehash
    · exact Or.inr (fun a => by simp [updFilehash, h])
    · exact Or.inl (fun a b => by simp [updFilehash, h])
  have hZ : ∀ mm ∈ ms, (∀ a b : Option Nat,
      updFilesize a mm = updFilesize b mm) ∨ (∀ a, updFilesize a mm = a) := by
    intro mm _
    cases h : truthyN mm.filesize
    · exact Or.inr (fun a => by simp [updFilesize, h])
    · exact Or.inl (fun a b => by simp [updFilesize, h])
  have hP : ∀ mm ∈ ms, (∀ a b : Option String,
      updHomepage a mm = updHomepage b mm) ∨ (∀ a, updHomepage a mm = a) := by
    intro mm _
    cases h : truthyS mm.homepage
    · exact Or.inr (fun a => by simp [updHomepage, h])
    · exact Or.inl (fun a b => by simp [updHomepage, h])
  have hA : ∀ mm ∈ ms, (∀ a b : Option String,
      updAuthor a mm = updAuthor b mm) ∨ (∀ a, updAuthor a mm = a) := by
    intro mm _
    cases h : truthyS mm.author
    · exact Or.inr (fun a => by simp [updAuthor, h])
    · exact Or.inl (fun a b => by simp [updAuthor, h])
  rw [applyDesc_fold_decomp sid ms e]
  rw [applyDesc_fold_decomp sid ms]
  refine Entry.ext ?_ ?_ ?_ ?_ ?_ ?_ ?_ ?_ ?_ ?_
  all_goals first
    | rfl
    | exact foldl_replay (updServiceId sid) ms hS e.serviceId
    | exact foldl_replay updVersion ms hV e.version
    | exact foldl_replay updFilename ms hF e.filename
    | exact foldl_replay updDescription ms hD e.description
    | exact foldl_replay updFilehash ms hH e.filehash
    | exact foldl_replay updFilesize ms hZ e.filesize
    | exact foldl_replay updHomepage ms hP e.homepage
    | exact foldl_replay updAuthor ms hA e.author

theorem keyMatchB_applyDesc {sid : Nat} {e : Entry} {m : ModDesc}
    (hsid : e.serviceId = sid) (mm : ModDesc) :
    keyMatchB sid (applyDesc sid m e) mm = keyMatchB sid e mm := by
  simp [keyMatchB, applyDesc, hsid]

theorem run_nocreate (sid : Nat) : ∀ (l : List ModDesc) (db : DB) (n u : Nat),
    WfDB db → (∀ mm ∈ l, findEntry db mm.name sid ≠ none) →
    (updateMods db sid l n u).1.entries =
      db.entries.map (fun e => List.foldl (fun a mm => applyDesc sid mm a) e
        (l.filter (fun mm => keyMatchB sid e mm))) ∧
    (updateMods db sid l n u).1.nextId = db.nextId ∧
    (updateMods db sid l n u).2.1 = n ∧
    (updateMods db sid l n u).2.2 = u + l.length := by
  intro l
  induction l with
  | nil =>
    intro db n u hwf hkeys
    refine ⟨?_, rfl, rfl, rfl⟩
    exact (map_eq_self_of (fun x hx => rfl)).symm
  | cons m rest ih =>
    intro db n u hwf hkeys
    obtain ⟨eF, hfindm⟩ : ∃ e, findEntry db m.name sid = some e := by
      cases h : findEntry db m.name sid with
      | some e => exact ⟨e, rfl⟩
      | none => exact absurd h (hkeys m (List.mem_cons_self _ _))
    have hcreated : (processDesc db sid m).2 = false := by
      rw [(processDesc_entries db sid m).2.2.2, saveModInstance_found hfindm]
    have hwf' := wf_processDesc sid m hwf
    have hent' : (processDesc db sid m).1.entries =
        db.entries.map (fun x => if keyMatchB sid x m then applyDesc sid m x else x) := by
      rw [(processDesc_entries db sid m).1, saveModInstance_found hfindm]
      exact replaceById_keyform hwf hfindm
    have hnext' : (processDesc db sid m).1.nextId = db.nextId := by
      rw [(processDesc_entries db sid m).2.2.1, saveModInstance_found hfindm]
    have hkeys' : ∀ mm ∈ rest,
        findEntry (processDesc db sid m).1 mm.name sid ≠ none := by
      intro mm hmm
      obtain ⟨e0, hfind0⟩ : ∃ e0, findEntry db mm.name sid = some e0 := by
        cases h : findEntry db mm.name sid with
        | some e0 => exact ⟨e0, rfl⟩
        | none => exact absurd h (hkeys mm (List.mem_cons_of_mem _ hmm))
      obtain ⟨e1, hfind1, _, _, _⟩ :=
        @keyStable_processDesc db sid m mm.name sid e0 hwf hfind0
      simp [hfind1]
    rw [updateMods_cons, hcreated]
    rw [if_neg Bool.false_ne_true, if_neg Bool.false_ne_true]
    obtain ⟨ihE, ihN, ihC1, ihC2⟩ := ih (processDesc db sid m).1 n (u + 1) hwf' hkeys'
    refine ⟨?_, ?_, ?_, ?_⟩
    · rw [ihE, hent', List.map_map]
      apply List.map_congr_left
      intro x hx
      simp only [Function.comp]
      by_cases hk : keyMatchB sid x m = true
      · have hx_sid : x.serviceId = sid := by
          simp only [keyMatchB, Bool.and_eq_true, beq_iff_eq] at hk
          exact hk.2
        rw [if_pos hk]
        have hfiltereq : rest.filter (fun mm => keyMatchB sid (applyDesc sid m x) mm) =
            rest.filter (fun mm => keyMatchB sid x mm) :=
          List.filter_congr (fun mm _ => keyMatchB_applyDesc hx_sid mm)
        rw [hfiltereq, List.filter_cons_of_pos hk, List.foldl_cons]
      · rw [if_neg hk, List.filter_cons_of_neg hk]
    · rw [ihN, hnext']
    · exact ihC1
    · rw [ihC2, List.length_cons]
      omega

theorem entry_origin (sid : Nat) : ∀ (l : List ModDesc) (db : DB) (n u : Nat),
    WfDB db → ∀ e' ∈ (updateMods db sid l n u).1.entries,
    ∃ b, (∀ mm, keyMatchB sid b mm = keyMatchB sid e' mm) ∧
      e' = List.foldl (fun a mm => applyDesc sid mm a) b
        (l.filter (fun mm => keyMatchB sid b mm)) ∧
      (b ∈ db.entries ∨ findEntry db b.name sid = none) := by
  intro l
  induction l with
  | nil =>
    intro db n u hwf e' he'
    exact ⟨e', fun mm => rfl, rfl, Or.inl he'⟩
  | cons m rest ih =>
    intro db n u hwf e' he'
    rw [updateMods_cons] at he'
    have hwf' := wf_processDesc sid m hwf
    obtain ⟨b₁, hkey1, hfold1, hmem1⟩ := ih (processDesc db sid m).1 _ _ hwf' e' he'
    have hself : findEntry (processDesc db sid m).1 m.name sid =
        some (saveModInstance db sid m).2.1 := findEntry_processDesc_self hwf
    cases hfindm : findEntry db m.name sid with
    | some eF =>
      have hent' : (processDesc db sid m).1.entries =
          db.entries.map (fun x => if keyMatchB sid x m then applyDesc sid m x else x) := by
        rw [(processDesc_entries db sid m).1, saveModInstance_found hfindm]
        exact replaceById_keyform hwf hfindm
      rcases hmem1 with hb1 | hb1
      · rw [hent'] at hb1
        obtain ⟨x, hx, hgx⟩ := List.mem_map.mp hb1
        by_cases hk : keyMatchB sid x m = true
        · have hx_sid : x.serviceId = sid := by
            simp only [keyMatchB, Bool.and_eq_true, beq_iff_eq] at hk
            exact hk.2
          have hb₁x : b₁ = applyDesc sid m x := by rw [← hgx, if_pos hk]
          refine ⟨x, ?_, ?_, Or.inl hx⟩
          · intro mm
            rw [← keyMatchB_applyDesc hx_sid mm, ← hb₁x]
            exact hkey1 mm
          · rw [List.filter_cons_of_pos hk, List.foldl_cons]
            have hfiltereq : rest.filter (fun mm => keyMatchB sid x mm) =
                rest.filter (fun mm => keyMatchB sid b₁ mm) :=
              List.filter_congr (fun mm _ => by
                rw [hb₁x, keyMatchB_applyDesc hx_sid mm])
            rw [hfiltereq, ← hb₁x]
            exact hfold1
        · have hb₁x : b₁ = x := by rw [← hgx, if_neg hk]
          refine ⟨x, ?_, ?_, Or.inl hx⟩
          · intro mm
            rw [← hb₁x]
            exact hkey1 mm
          · rw [List.filter_cons_of_neg hk]
            have hfiltereq : rest.filter (fun mm => keyMatchB sid x mm) =
                rest.filter (fun mm => keyMatchB sid b₁ mm) :=
              List.filter_congr (fun mm _ => by rw [hb₁x])
            rw [hfiltereq, ← hb₁x]
            exact hfold1
      · have hkbm : ¬ (keyMatchB sid b₁ m = true) := by
          intro hk
          simp only [keyMatchB, Bool.and_eq_true, beq_iff_eq] at hk
          rw [hk.1, hself] at hb1
          cases hb1
        refine ⟨b₁, hkey1, ?_, ?_⟩
        · rw [List.filter_cons_of_neg hkbm]
          exact hfold1
        · right
          cases hdb : findEntry db b₁.name sid with
          | none => rfl
          | some y =>
            obtain ⟨y', hy', _, _, _⟩ := keyStable_processDesc hwf hdb
            rw [hy'] at hb1
            cases hb1
    | none =>
      have hent' : (processDesc db sid m).1.entries =
          db.entries ++ [applyDesc sid m (baseEntry db.nextId m.name sid)] := by
        rw [(processDesc_entries db sid m).1, saveModInstance_notfound hfindm hwf]
      have hnone0 := hfindm
      rw [findEntry] at hnone0
      rcases hmem1 with hb1 | hb1
      · rw [hent'] at hb1
        rcases List.mem_append.mp hb1 with hb1' | hb1'
        · have hkbm : ¬ (keyMatchB sid b₁ m = true) := by
            intro hk
            simp only [keyMatchB, Bool.and_eq_true, beq_iff_eq] at hk
            have habsent := List.find?_eq_none.mp hnone0 b₁ hb1'
            simp only [Bool.and_eq_true, beq_iff_eq, not_and] at habsent
            exact habsent hk.1 hk.2
          refine ⟨b₁, hkey1, ?_, Or.inl hb1'⟩
          rw [List.filter_cons_of_neg hkbm]
          exact hfold1
        · simp only [List.mem_singleton] at hb1'
          have hbase_sid : (baseEntry db.nextId m.name sid).serviceId = sid := rfl
          have hkeq : ∀ mm, keyMatchB sid (baseEntry db.nextId m.name sid) mm =
              keyMatchB sid b₁ mm := by
            intro mm
            rw [hb1']
            exact (keyMatchB_applyDesc hbase_sid mm).symm
          have hkbase_m : keyMatchB sid (baseEntry db.nextId m.name sid) m = true := by
            simp [keyMatchB, baseEntry]
          refine ⟨baseEntry db.nextId m.name sid, ?_, ?_, Or.inr ?_⟩
          · intro mm
            rw [hkeq mm]
            exact hkey1 mm
          · rw [List.filter_cons_of_pos hkbase_m, List.foldl_cons]
            have hfiltereq : rest.filter
                (fun mm => keyMatchB sid (baseEntry db.nextId m.name sid) mm) =
                rest.filter (fun mm => keyMatchB sid b₁ mm) :=
              List.filter_congr (fun mm _ => hkeq mm)
            rw [hfiltereq, ← hb1']
            exact hfold1
          · exact hfindm
      · have hkbm : ¬ (keyMatchB sid b₁ m = true) := by
          intro hk
          simp only [keyMatchB, Bool.and_eq_true, beq_iff_eq] at hk
          rw [hk.1, hself] at hb1
          cases hb1
        refine ⟨b₁, hkey1, ?_, ?_⟩
        · rw [List.filter_cons_of_neg hkbm]
          exact hfold1
        · right
          cases hdb : findEntry db b₁.name sid with
          | none => rfl
          | some y =>
            obtain ⟨y', hy', _, _, _⟩ := keyStable_processDesc hwf hdb
            rw [hy'] at hb1
            cases hb1

/-! ### Self-provision: C4 -/

theorem selfProv_processDesc {db : DB} (sid : Nat) (m : ModDesc) (hwf : WfDB db) :
    ∃ e, findEntry (processDesc db sid m).1 m.name sid = some e ∧
      e.name = m.name ∧
      (⟨e.id, 1, e.name⟩ : Dep) ∈ (processDesc db sid m).1.deps := by
  refine ⟨(saveModInstance db sid m).2.1, findEntry_processDesc_self hwf,
    saveModInstance_name db sid m, ?_⟩
  rw [processDesc_deps]
  apply List.mem_append.mpr
  right
  rw [blocksOf, saveModInstance_name db sid m]
  apply List.mem_append.mpr
  left
  apply List.mem_append.mpr
  left
  apply List.mem_append.mpr
  right
  exact List.mem_map.mpr ⟨m.name, List.mem_cons_self _ _, rfl⟩

theorem selfProv_preserved {db : DB} (sid : Nat) (m : ModDesc) {nm : String}
    (hwf : WfDB db)
    (h : ∃ e, findEntry db nm sid = some e ∧ e.name = nm ∧
      (⟨e.id, 1, e.name⟩ : Dep) ∈ db.deps) :
    ∃ e, findEntry (processDesc db sid m).1 nm sid = some e ∧ e.name = nm ∧
      (⟨e.id, 1, e.name⟩ : Dep) ∈ (processDesc db sid m).1.deps := by
  obtain ⟨e, hfind, hname, hmem⟩ := h
  by_cases hsame : m.name = nm
  · subst hsame
    exact selfProv_processDesc sid m hwf
  · have hemem : e ∈ db.entries := by
      have h0 := hfind
      rw [findEntry] at h0
      exact List.mem_of_find?_eq_some h0
    obtain ⟨e', hfind', hid', hname', hsid'⟩ :=
      @keyStable_processDesc db sid m nm sid e hwf hfind
    refine ⟨e', hfind', hname'.trans hname, ?_⟩
    rw [processDesc_deps]
    apply List.mem_append.mpr
    left
    apply List.mem_filter.mpr
    have hne : e.id ≠ (saveModInstance db sid m).2.1.id := by
      cases hfm : findEntry db m.name sid with
      | some eF =>
        rw [saveModInstance_found hfm]
        intro hcontra
        have hFentries : eF ∈ db.entries := by
          have h0 := hfm
          rw [findEntry] at h0
          exact List.mem_of_find?_eq_some h0
        have heF : e = eF := eq_of_id_eq hwf.2.1 e hemem eF hFentries
          (by simpa [applyDesc] using hcontra)
        have hFname : eF.name = m.name := by
          have h0 := hfm
          rw [findEntry] at h0
          have h1 := List.find?_some h0
          simp only [Bool.and_eq_true, beq_iff_eq] at h1
          exact h1.1
        exact hsame (by rw [← hFname, ← heF, hname])
      | none =>
        rw [saveModInstance_notfound hfm hwf]
        intro hcontra
        have hlt := hwf.1 e hemem
        simp only [applyDesc, baseEntry] at hcontra
        omega
    refine ⟨by rw [hid', hname']; exact hmem, ?_⟩
    rw [hid']
    have hbe : (e.id == (saveModInstance db sid m).2.1.id) = false :=
      beq_eq_false_iff_ne.mpr hne
    simp [ownsRow, hbe]

theorem selfProv_run (sid : Nat) : ∀ (l : List ModDesc) (db : DB) (n u : Nat)
    (nm : String), WfDB db →
    (∃ e, findEntry db nm sid = some e ∧ e.name = nm ∧
      (⟨e.id, 1, e.name⟩ : Dep) ∈ db.deps) →
    ∃ e, findEntry (updateMods db sid l n u).1 nm sid = some e ∧ e.name = nm ∧
      (⟨e.id, 1, e.name⟩ : Dep) ∈ (updateMods db sid l n u).1.deps := by
  intro l
  induction l with
  | nil => intro db n u nm hwf h; exact h
  | cons m rest ih =>
    intro db n u nm hwf h
    rw [updateMods_cons]
    exact ih _ _ _ nm (wf_processDesc sid m hwf) (selfProv_preserved sid m hwf h)

theorem selfProv_aux (sid : Nat) : ∀ (l : List ModDesc) (db : DB) (n u : Nat),
    WfDB db → ∀ m ∈ l,
    ∃ e, findEntry (updateMods db sid l n u).1 m.name sid = some e ∧
      e.name = m.name ∧
      (⟨e.id, 1, e.name⟩ : Dep) ∈ (updateMods db sid l n u).1.deps := by
  intro l
  induction l with
  | nil => intro db n u hwf m hm; simp at hm
  | cons m0 rest ih =>
    intro db n u hwf m hm
    rw [updateMods_cons]
    rcases List.mem_cons.mp hm with rfl | hm'
    · exact selfProv_run sid rest _ _ _ m.name (wf_processDesc sid m hwf)
        (selfProv_processDesc sid m hwf)
    · exact ih _ _ _ (wf_processDesc sid m0 hwf) m hm'

/-- C4: after a synchronization pass over any descriptor list, every
processed descriptor's stored entry carries a Provides edge whose
keyword equals the entry's own name, whether or not the manifest's
`provides` list mentions it. -/
theorem selfProvision_c4 (db : DB) (sid : Nat) (l : List ModDesc) (m : ModDesc)
    (hwf : WfDB db) (hm : m ∈ l) :
    ∃ e, findEntry (updateMods db sid l 0 0).1 m.name sid = some e ∧
      e.name = m.name ∧
      (⟨e.id, 1, e.name⟩ : Dep) ∈ (updateMods db sid l 0 0).1.deps :=
  selfProv_aux sid l db 0 0 hwf m hm

theorem selfProvision_c4_witness :
    ∃ e, findEntry (updateMods emptyDB 7 [wDescCore] 0 0).1 wDescCore.name 7 =
        some e ∧
      e.name = wDescCore.name ∧
      (⟨e.id, 1, e.name⟩ : Dep) ∈ (updateMods emptyDB 7 [wDescCore] 0 0).1.deps :=
  selfProvision_c4 emptyDB 7 [wDescCore] wDescCore
    ⟨fun e he => absurd he (by simp [emptyDB]), by simp [emptyDB], by simp [emptyDB]⟩
    (List.mem_singleton.mpr rfl)

/-! ### Synchronization idempotence: C7 -/

/-- C7: re-synchronizing the same descriptor list for a service is
idempotent on the store: the second run leaves every entry row and
every relation edge (and the whole store state) identical, reports 0 new
entries, and reports an updated count equal to the descriptor count. -/
theorem updateMods_idempotent_c7 (db : DB) (sid : Nat) (l : List ModDesc)
    (hwf : WfDB db) :
    updateMods (updateMods db sid l 0 0).1 sid l 0 0 =
      ((updateMods db sid l 0 0).1, 0, l.length) := by
  have hwf1 : WfDB (updateMods db sid l 0 0).1 := wf_run sid l db 0 0 hwf
  have hkeys1 : ∀ mm ∈ l,
      findEntry (updateMods db sid l 0 0).1 mm.name sid ≠ none := by
    intro mm hmm
    obtain ⟨e', hfind'⟩ := keyExists_run sid l db 0 0 hwf mm hmm
    simp [hfind']
  obtain ⟨hE2, hN2, hC1, hC2⟩ :=
    run_nocreate sid l (updateMods db sid l 0 0).1 0 0 hwf1 hkeys1
  have hfix : ∀ e' ∈ (updateMods db sid l 0 0).1.entries,
      List.foldl (fun a mm => applyDesc sid mm a) e'
        (l.filter (fun mm => keyMatchB sid e' mm)) = e' := by
    intro e' he'
    obtain ⟨b, hkeyb, hfoldb, _⟩ := entry_origin sid l db 0 0 hwf e' he'
    have hfiltereq : l.filter (fun mm => keyMatchB sid e' mm) =
        l.filter (fun mm => keyMatchB sid b mm) :=
      List.filter_congr (fun mm _ => (hkeyb mm).symm)
    rw [hfiltereq, hfoldb]
    exact applyDesc_fold_idem sid _ b
  have hE2' : (updateMods (updateMods db sid l 0 0).1 sid l 0 0).1.entries =
      (updateMods db sid l 0 0).1.entries := by
    rw [hE2]
    exact map_eq_self_of hfix
  have hdeps1 : (updateMods db sid l 0 0).1.deps =
      depRun (identOf (updateMods db sid l 0 0).1 sid) db.deps l :=
    deps_char_run sid l db 0 0 hwf
  have hdeps2 : (updateMods (updateMods db sid l 0 0).1 sid l 0 0).1.deps =
      depRun (identOf (updateMods (updateMods db sid l 0 0).1 sid l 0 0).1 sid)
        (updateMods db sid l 0 0).1.deps l :=
    deps_char_run sid l (updateMods db sid l 0 0).1 0 0 hwf1
  have hident : ∀ mm ∈ l,
      identOf (updateMods (updateMods db sid l 0 0).1 sid l 0 0).1 sid mm =
        identOf (updateMods db sid l 0 0).1 sid mm := by
    intro mm hmm
    obtain ⟨e1, hfind1⟩ : ∃ e1,
        findEntry (updateMods db sid l 0 0).1 mm.name sid = some e1 := by
      cases h : findEntry (updateMods db sid l 0 0).1 mm.name sid with
      | some e1 => exact ⟨e1, rfl⟩
      | none => exact absurd h (hkeys1 mm hmm)
    obtain ⟨e2, hfind2, hid2, _, _⟩ :=
      keyStable_run sid l (updateMods db sid l 0 0).1 0 0 mm.name sid e1 hwf1 hfind1
    rw [identOf, identOf, hfind1, hfind2]
    exact hid2
  have hdeps2' : (updateMods (updateMods db sid l 0 0).1 sid l 0 0).1.deps =
      (updateMods db sid l 0 0).1.deps := by
    rw [hdeps2, depRun_congr _ _ l (updateMods db sid l 0 0).1.deps hident, hdeps1]
    exact depRun_idem _ _ _
  have hsvc2 : (updateMods (updateMods db sid l 0 0).1 sid l 0 0).1.services =
      (updateMods db sid l 0 0).1.services :=
    updateMods_services sid l (updateMods db sid l 0 0).1 0 0
  have hstate : (updateMods (updateMods db sid l 0 0).1 sid l 0 0).1 =
      (updateMods db sid l 0 0).1 :=
    DB.ext hsvc2 hE2' hdeps2' hN2
  have heta : updateMods (updateMods db sid l 0 0).1 sid l 0 0 =
      ((updateMods (updateMods db sid l 0 0).1 sid l 0 0).1,
        (updateMods (updateMods db sid l 0 0).1 sid l 0 0).2.1,
        (updateMods (updateMods db sid l 0 0).1 sid l 0 0).2.2) := rfl
  rw [heta, hstate, hC1, hC2]
  simp

theorem updateMods_idempotent_c7_witness :
    updateMods (updateMods emptyDB 2 [wDescCore] 0 0).1 2 [wDescCore] 0 0 =
      ((updateMods emptyDB 2 [wDescCore] 0 0).1, 0, [wDescCore].length) :=
  updateMods_idempotent_c7 emptyDB 2 [wDescCore]
    ⟨fun e he => absurd he (by simp [emptyDB]), by simp [emptyDB], by simp [emptyDB]⟩

/-! ### Resolver record lemmas -/

theorem recordKeys_cons (k : String) (ts : List Triple) (rest : Record) :
    recordKeys ((k, ts) :: rest) = k :: recordKeys rest := rfl

theorem recordKeys_addDependency (r : Record) (tag : String) (p src : Entry)
    (rel : Nat) :
    recordKeys (addDependency r tag p rel src) =
      if tag ∈ recordKeys r then recordKeys r else recordKeys r ++ [tag] := by
  induction r with
  | nil => simp [addDependency, recordKeys]
  | cons kv rest ih =>
    obtain ⟨k, ts⟩ := kv
    cases h : (k == tag) with
    | true =>
      have hk : k = tag := beq_iff_eq.mp h
      rw [addDependency, if_pos h]
      subst hk
      simp [recordKeys]
    | false =>
      have hk : ¬ (tag = k) := fun hc => by simp [hc] at h
      rw [addDependency, if_neg (by simp [h])]
      show k :: recordKeys (addDependency rest tag p rel src) = _
      rw [ih, recordKeys_cons]
      by_cases hmem : tag ∈ recordKeys rest
      · rw [if_pos hmem, if_pos (List.mem_cons_of_mem k hmem)]
      · rw [if_neg hmem, if_neg (by
          intro hc
          rcases List.mem_cons.mp hc with hc' | hc'
          · exact hk hc'
          · exact hmem hc')]
        rfl

theorem mem_recordKeys_addDependency (r : Record) (tag : String) (p src : Entry)
    (rel : Nat) (kw : String) :
    kw ∈ recordKeys (addDependency r tag p rel src) ↔
      kw ∈ recordKeys r ∨ kw = tag := by
  rw [recordKeys_addDependency]
  by_cases hmem : tag ∈ recordKeys r
  · rw [if_pos hmem]
    constructor
    · exact Or.inl
    · rintro (h | rfl)
      · exact h
      · exact hmem
  · rw [if_neg hmem]
    simp

theorem keys_sub_addDependency (r : Record) (tag : String) (p src : Entry)
    (rel : Nat) : recordKeys r ⊆ recordKeys (addDependency r tag p rel src) := by
  intro kw hkw
  exact (mem_recordKeys_addDependency r tag p src rel kw).mpr (Or.inl hkw)

theorem tag_mem_addDependency (r : Record) (tag : String) (p src : Entry)
    (rel : Nat) : tag ∈ recordKeys (addDependency r tag p rel src) :=
  (mem_recordKeys_addDependency r tag p src rel tag).mpr (Or.inr rfl)

theorem addDependency_snd_ne (tag : String) (p src : Entry) (rel : Nat) :
    ∀ (r : Record), (∀ kv ∈ r, kv.2 ≠ []) →
      ∀ kv ∈ addDependency r tag p rel src, kv.2 ≠ [] := by
  intro r
  induction r with
  | nil =>
    intro hne kv hkv
    simp only [addDependency, List.mem_singleton] at hkv
    subst hkv
    simp
  | cons kv0 rest ih =>
    obtain ⟨k, ts⟩ := kv0
    intro hne kv hkv
    rw [addDependency] at hkv
    by_cases hk : (k == tag) = true
    · rw [if_pos hk] at hkv
      rcases List.mem_cons.mp hkv with rfl | hkv'
      · simp only
        intro hcontra
        exact absurd (List.append_eq_nil.mp hcontra).2 (by simp)
      · exact hne kv (List.mem_cons_of_mem _ hkv')
    · rw [if_neg hk] at hkv
      rcases List.mem_cons.mp hkv with rfl | hkv'
      · exact hne _ (List.mem_cons_self _ _)
      · exact ih (fun kv2 hkv2 => hne kv2 (List.mem_cons_of_mem _ hkv2)) kv hkv'

theorem addDependency_relc (tag : String) (p src : Entry) (c : Nat) :
    ∀ (r : Record), (∀ kv ∈ r, ∀ t ∈ kv.2, t.2.2 = c) →
      ∀ kv ∈ addDependency r tag p c src, ∀ t ∈ kv.2, t.2.2 = c := by
  intro r
  induction r with
  | nil =>
    intro hrel kv hkv t ht
    simp only [addDependency, List.mem_singleton] at hkv
    subst hkv
    simp only [List.mem_singleton] at ht
    subst ht
    rfl
  | cons kv0 rest ih =>
    obtain ⟨k, ts⟩ := kv0
    intro hrel kv hkv t ht
    rw [addDependency] at hkv
    by_cases hk : (k == tag) = true
    · rw [if_pos hk] at hkv
      rcases List.mem_cons.mp hkv with rfl | hkv'
      · simp only at ht
        rcases List.mem_append.mp ht with ht' | ht'
        · exact hrel (k, ts) (List.mem_cons_self _ _) t ht'
        · simp only [List.mem_singleton] at ht'
          subst ht'
          rfl
      · exact hrel kv (List.mem_cons_of_mem _ hkv') t ht
    · rw [if_neg hk] at hkv
      rcases List.mem_cons.mp hkv with rfl | hkv'
      · exact hrel _ (List.mem_cons_self _ _) t ht
      · exact ih (fun kv2 hkv2 t2 ht2 =>
          hrel kv2 (List.mem_cons_of_mem _ hkv2) t2 ht2) kv hkv' t ht

theorem goodR_addDependency (r : Record) (tag : String) (p src : Entry)
    (h : GoodR r) : GoodR (addDependency r tag p 0 src) := by
  obtain ⟨hnodup, hne, hrel⟩ := h
  refine ⟨?_, ?_, ?_⟩
  · rw [recordKeys_addDependency]
    by_cases hmem : tag ∈ recordKeys r
    · rw [if_pos hmem]; exact hnodup
    · rw [if_neg hmem]; exact nodup_append_singleton hnodup hmem
  · exact addDependency_snd_ne tag p src 0 r hne
  · exact addDependency_relc tag p src 0 r hrel

/-! ### Resolver loop lemmas: monotonicity, fuel, invariants -/

theorem provsF_mono {rE : Entry → Record → Option Record}
    (hrE : ∀ p r r', rE p r = some r' → recordKeys r ⊆ recordKeys r')
    (kw : String) (rel : Nat) (src : Entry) :
    ∀ (provs : List Entry) (r r' : Record),
      resolveProvsF rE kw rel src provs r = some r' →
      recordKeys r ⊆ recordKeys r' := by
  intro provs
  induction provs with
  | nil =>
    intro r r' h
    rw [resolveProvsF] at h
    injection h with h
    subst h
    exact fun _ hk => hk
  | cons p rest ih =>
    intro r r' h
    rw [resolveProvsF] at h
    cases hcall : rE p (addDependency r kw p rel src) with
    | none => rw [hcall] at h; cases h
    | some r1 =>
      rw [hcall] at h
      exact fun kw2 hkw2 => ih r1 r' h
        (hrE p _ r1 hcall (keys_sub_addDependency r kw p src rel hkw2))

theorem kwsF_mono (db : DB) {rE : Entry → Record → Option Record}
    (hrE : ∀ p r r', rE p r = some r' → recordKeys r ⊆ recordKeys r')
    (rel : Nat) (src : Entry) :
    ∀ (kws : List String) (r r' : Record),
      resolveKwsF db rE rel src kws r = some r' →
      recordKeys r ⊆ recordKeys r' := by
  intro kws
  induction kws with
  | nil =>
    intro r r' h
    rw [resolveKwsF] at h
    injection h with h
    subst h
    exact fun _ hk => hk
  | cons kw rest ih =>
    intro r r' h
    rw [resolveKwsF] at h
    cases hcall : resolveProvsF rE kw rel src (providerEntries db kw) r with
    | none => rw [hcall] at h; cases h
    | some r1 =>
      rw [hcall] at h
      exact fun kw2 hkw2 => ih r1 r' h (provsF_mono hrE kw rel src _ r r1 hcall hkw2)

theorem resolveEntry_mono (db : DB) :
    ∀ (fuel : Nat) (e : Entry) (rel : Nat) (r r' : Record),
      resolveEntry db fuel e rel r = some r' →
      recordKeys r ⊆ recordKeys r' := by
  intro fuel
  induction fuel with
  | zero => intro e rel r r' h; cases h
  | succ f ih =>
    intro e rel r r' h
    rw [resolveEntry] at h
    exact kwsF_mono db (fun p r2 r2' h2 => ih p 0 r2 r2' h2) rel e _ r r' h

theorem provsF_lift {rE rE' : Entry → Record → Option Record}
    (hlift : ∀ p r r', rE p r = some r' → rE' p r = some r')
    (kw : String) (rel : Nat) (src : Entry) :
    ∀ (provs : List Entry) (r r' : Record),
      resolveProvsF rE kw rel src provs r = some r' →
      resolveProvsF rE' kw rel src provs r = some r' := by
  intro provs
  induction provs with
  | nil => intro r r' h; exact h
  | cons p rest ih =>
    intro r r' h
    rw [resolveProvsF] at h ⊢
    cases hcall : rE p (addDependency r kw p rel src) with
    | none => rw [hcall] at h; cases h
    | some r1 =>
      rw [hcall] at h
      rw [hlift p _ r1 hcall]
      exact ih r1 r' h

theorem kwsF_lift (db : DB) {rE rE' : Entry → Record → Option Record}
    (hlift : ∀ p r r', rE p r = some r' → rE' p r = some r')
    (rel : Nat) (src : Entry) :
    ∀ (kws : List String) (r r' : Record),
      resolveKwsF db rE rel src kws r = some r' →
      resolveKwsF db rE' rel src kws r = some r' := by
  intro kws
  induction kws with
  | nil => intro r r' h; exact h
  | cons kw rest ih =>
    intro r r' h
    rw [resolveKwsF] at h ⊢
    cases hcall : resolveProvsF rE kw rel src (providerEntries db kw) r with
    | none => rw [hcall] at h; cases h
    | some r1 =>
      rw [hcall] at h
      rw [provsF_lift hlift kw rel src _ r r1 hcall]
      exact ih r1 r' h

theorem resolveEntry_fuel_succ (db : DB) :
    ∀ (fuel : Nat) (e : Entry) (rel : Nat) (r r' : Record),
      resolveEntry db fuel e rel r = some r' →
      resolveEntry db (fuel + 1) e rel r = some r' := by
  intro fuel
  induction fuel with
  | zero => intro e rel r r' h; cases h
  | succ f ih =>
    intro e rel r r' h
    rw [resolveEntry] at h ⊢
    exact kwsF_lift db (fun p r2 r2' h2 => ih p 0 r2 r2' h2) rel e _ r r' h

theorem resolveEntry_fuel_le (db : DB) {fuel fuel' : Nat} (hle : fuel ≤ fuel')
    {e : Entry} {rel : Nat} {r r' : Record}
    (h : resolveEntry db fuel e rel r = some r') :
    resolveEntry db fuel' e rel r = some r' := by
  induction fuel', hle using Nat.le_induction with
  | base => exact h
  | succ f hf ih => exact resolveEntry_fuel_succ db f e rel r r' ih

theorem provsF_good {rE : Entry → Record → Option Record}
    (hrE : ∀ p r r', rE p r = some r' → GoodR r → GoodR r')
    (kw : String) (src : Entry) :
    ∀ (provs : List Entry) (r r' : Record),
      resolveProvsF rE kw 0 src provs r = some r' → GoodR r → GoodR r' := by
  intro provs
  induction provs with
  | nil =>
    intro r r' h hg
    rw [resolveProvsF] at h
    injection h with h
    subst h
    exact hg
  | cons p rest ih =>
    intro r r' h hg
    rw [resolveProvsF] at h
    cases hcall : rE p (addDependency r kw p 0 src) with
    | none => rw [hcall] at h; cases h
    | some r1 =>
      rw [hcall] at h
      exact ih r1 r' h (hrE p _ r1 hcall (goodR_addDependency r kw p src hg))

theorem kwsF_good (db : DB) {rE : Entry → Record → Option Record}
    (hrE : ∀ p r r', rE p r = some r' → GoodR r → GoodR r') (src : Entry) :
    ∀ (kws : List String) (r r' : Record),
      resolveKwsF db rE 0 src kws r = some r' → GoodR r → GoodR r' := by
  intro kws
  induction kws with
  | nil =>
    intro r r' h hg
    rw [resolveKwsF] at h
    injection h with h
    subst h
    exact hg
  | cons kw rest ih =>
    intro r r' h hg
    rw [resolveKwsF] at h
    cases hcall : resolveProvsF rE kw 0 src (providerEntries db kw) r with
    | none => rw [hcall] at h; cases h
    | some r1 =>
      rw [hcall] at h
      exact ih r1 r' h (provsF_good hrE kw src _ r r1 hcall hg)

theorem resolveEntry_good (db : DB) :
    ∀ (fuel : Nat) (e : Entry) (r r' : Record),
      resolveEntry db fuel e 0 r = some r' → GoodR r → GoodR r' := by
  intro fuel
  induction fuel with
  | zero => intro e r r' h; cases h
  | succ f ih =>
    intro e r r' h hg
    rw [resolveEntry] at h
    exact kwsF_good db (fun p r2 r2' h2 => ih p r2 r2' h2) e _ r r' h hg

/-! ### Resolver soundness: recorded keys are reachable -/

theorem reachKw_through (db : DB) {root : Entry} {kw : String} {p : Entry}
    (hkw : ReachKw db root kw) (hp : p ∈ providerEntries db kw) :
    ∀ {k : String}, ReachKw db p k → ReachKw db root k := by
  intro k hreach
  induction hreach with
  | base h => exact ReachKw.step hkw hp h
  | step h1 h2 h3 ih => exact ReachKw.step ih h2 h3

theorem provsF_sound (db : DB) {rE : Entry → Record → Option Record}
    (B : Entry → String → Prop) {kw : String} (src : Entry)
    (hrE : ∀ p r r', p ∈ providerEntries db kw → rE p r = some r' →
      ∀ k ∈ recordKeys r', k ∈ recordKeys r ∨ B p k) :
    ∀ (provs : List Entry) (r r' : Record), provs ⊆ providerEntries db kw →
      resolveProvsF rE kw 0 src provs r = some r' →
      ∀ k ∈ recordKeys r', k ∈ recordKeys r ∨
        (k = kw ∧ providerEntries db kw ≠ []) ∨
        ∃ p ∈ providerEntries db kw, B p k := by
  intro provs
  induction provs with
  | nil =>
    intro r r' hsub h k hk
    rw [resolveProvsF] at h
    injection h with h
    subst h
    exact Or.inl hk
  | cons p rest ih =>
    intro r r' hsub h k hk
    rw [resolveProvsF] at h
    cases hcall : rE p (addDependency r kw p 0 src) with
    | none => rw [hcall] at h; cases h
    | some r1 =>
      rw [hcall] at h
      have hpmem : p ∈ providerEntries db kw := hsub (List.mem_cons_self _ _)
      have hrestsub : rest ⊆ providerEntries db kw :=
        fun q hq => hsub (List.mem_cons_of_mem _ hq)
      rcases ih r1 r' hrestsub h k hk with h1 | h1 | h1
      · rcases hrE p _ r1 hpmem hcall k h1 with h2 | h2
        · rcases (mem_recordKeys_addDependency r kw p src 0 k).mp h2 with h3 | h3
          · exact Or.inl h3
          · exact Or.inr (Or.inl ⟨h3, fun hc => by rw [hc] at hpmem; cases hpmem⟩)
        · exact Or.inr (Or.inr ⟨p, hpmem, h2⟩)
      · exact Or.inr (Or.inl h1)
      · exact Or.inr (Or.inr h1)

theorem kwsF_sound (db : DB) {rE : Entry → Record → Option Record}
    (B : Entry → String → Prop) (src : Entry)
    (hrE : ∀ p r r', rE p r = some r' →
      ∀ k ∈ recordKeys r', k ∈ recordKeys r ∨ B p k) :
    ∀ (kws : List String) (r r' : Record),
      kws ⊆ getDependencyInfo db src 0 →
      resolveKwsF db rE 0 src kws r = some r' →
      ∀ k ∈ recordKeys r', k ∈ recordKeys r ∨
        ∃ kw ∈ getDependencyInfo db src 0,
          ((k = kw ∧ providerEntries db kw ≠ []) ∨
            ∃ p ∈ providerEntries db kw, B p k) := by
  intro kws
  induction kws with
  | nil =>
    intro r r' hsub h k hk
    rw [resolveKwsF] at h
    injection h with h
    subst h
    exact Or.inl hk
  | cons kw rest ih =>
    intro r r' hsub h k hk
    rw [resolveKwsF] at h
    cases hcall : resolveProvsF rE kw 0 src (providerEntries db kw) r with
    | none => rw [hcall] at h; cases h
    | some r1 =>
      rw [hcall] at h
      have hkwmem : kw ∈ getDependencyInfo db src 0 :=
        hsub (List.mem_cons_self _ _)
      have hrestsub : rest ⊆ getDependencyInfo db src 0 :=
        fun q hq => hsub (List.mem_cons_of_mem _ hq)
      rcases ih r1 r' hrestsub h k hk with h1 | h1
      · rcases provsF_sound db B src (fun p r2 r2' _ hc => hrE p r2 r2' hc)
          (providerEntries db kw) r r1 (fun q hq => hq) hcall k h1 with h2 | h2 | h2
        · exact Or.inl h2
        · exact Or.inr ⟨kw, hkwmem, Or.inl h2⟩
        · exact Or.inr ⟨kw, hkwmem, Or.inr h2⟩
      · exact Or.inr h1

theorem resolveEntry_sound (db : DB) :
    ∀ (fuel : Nat) (e : Entry) (r r' : Record),
      resolveEntry db fuel e 0 r = some r' →
      ∀ k ∈ recordKeys r', k ∈ recordKeys r ∨
        (ReachKw db e k ∧ providerEntries db k ≠ []) := by
  intro fuel
  induction fuel with
  | zero => intro e r r' h; cases h
  | succ f ih =>
    intro e r r' h k hk
    rw [resolveEntry] at h
    have hs := kwsF_sound db
      (fun p k2 => ReachKw db p k2 ∧ providerEntries db k2 ≠ []) e
      (fun p r2 r2' hc => ih p r2 r2' hc)
      (getDependencyInfo db e 0) r r' (fun q hq => hq) h k hk
    rcases hs with h1 | ⟨kw, hkw, h1 | h1⟩
    · exact Or.inl h1
    · obtain ⟨hkeq, hprov⟩ := h1
      subst hkeq
      exact Or.inr ⟨ReachKw.base hkw, hprov⟩
    · obtain ⟨p, hp, hreach, hprov⟩ := h1
      exact Or.inr ⟨reachKw_through db (ReachKw.base hkw) hp hreach, hprov⟩

/-! ### Resolver completeness: reachable provided keys are recorded -/

theorem provsF_extract {rE : Entry → Record → Option Record}
    (hmono : ∀ p r r', rE p r = some r' → recordKeys r ⊆ recordKeys r')
    (kw : String) (src : Entry) :
    ∀ (provs : List Entry) (r r' : Record),
      resolveProvsF rE kw 0 src provs r = some r' →
      ∀ p ∈ provs, ∃ rA rB, rE p rA = some rB ∧
        recordKeys rB ⊆ recordKeys r' := by
  intro provs
  induction provs with
  | nil => intro r r' h p hp; simp at hp
  | cons p0 rest ih =>
    intro r r' h p hp
    rw [resolveProvsF] at h
    cases hcall : rE p0 (addDependency r kw p0 0 src) with
    | none => rw [hcall] at h; cases h
    | some r1 =>
      rw [hcall] at h
      rcases List.mem_cons.mp hp with rfl | hp'
      · exact ⟨_, r1, hcall, provsF_mono hmono kw 0 src rest r1 r' h⟩
      · exact ih r1 r' h p hp'

theorem kwsF_extract (db : DB) {rE : Entry → Record → Option Record}
    (hmono : ∀ p r r', rE p r = some r' → recordKeys r ⊆ recordKeys r')
    (src : Entry) :
    ∀ (kws : List String) (r r' : Record),
      resolveKwsF db rE 0 src kws r = some r' →
      ∀ kw ∈ kws, ∃ rA rB,
        resolveProvsF rE kw 0 src (providerEntries db kw) rA = some rB ∧
        recordKeys rB ⊆ recordKeys r' := by
  intro kws
  induction kws with
  | nil => intro r r' h kw hkw; simp at hkw
  | cons kw0 rest ih =>
    intro r r' h kw hkw
    rw [resolveKwsF] at h
    cases hcall : resolveProvsF rE kw0 0 src (providerEntries db kw0) r with
    | none => rw [hcall] at h; cases h
    | some r1 =>
      rw [hcall] at h
      rcases List.mem_cons.mp hkw with rfl | hkw'
      · exact ⟨r, r1, hcall, kwsF_mono db hmono 0 src rest r1 r' h⟩
      · exact ih r1 r' h kw hkw'

theorem provsF_firstkey {rE : Entry → Record → Option Record}
    (hmono : ∀ p r r', rE p r = some r' → recordKeys r ⊆ recordKeys r')
    (kw : String) (src : Entry) :
    ∀ (provs : List Entry) (r r' : Record), provs ≠ [] →
      resolveProvsF rE kw 0 src provs r = some r' → kw ∈ recordKeys r' := by
  intro provs
  cases provs with
  | nil => intro r r' hne; exact absurd rfl hne
  | cons p rest =>
    intro r r' hne h
    rw [resolveProvsF] at h
    cases hcall : rE p (addDependency r kw p 0 src) with
    | none => rw [hcall] at h; cases h
    | some r1 =>
      rw [hcall] at h
      exact provsF_mono hmono kw 0 src rest r1 r' h
        (hmono p _ r1 hcall (tag_mem_addDependency r kw p src 0))

theorem resolveEntry_base_complete (db : DB) :
    ∀ (fuel : Nat) (e : Entry) (r r' : Record),
      resolveEntry db fuel e 0 r = some r' →
      ∀ kw ∈ getDependencyInfo db e 0, providerEntries db kw ≠ [] →
        kw ∈ recordKeys r' := by
  intro fuel
  cases fuel with
  | zero => intro e r r' h; cases h
  | succ f =>
    intro e r r' h kw hkw hprov
    rw [resolveEntry] at h
    have hmono : ∀ p r2 r2', resolveEntry db f p 0 r2 = some r2' →
        recordKeys r2 ⊆ recordKeys r2' :=
      fun p r2 r2' hc => resolveEntry_mono db f p 0 r2 r2' hc
    obtain ⟨rA, rB, hprovs, hsub⟩ :=
      kwsF_extract db hmono e (getDependencyInfo db e 0) r r' h kw hkw
    exact hsub (provsF_firstkey hmono kw e (providerEntries db kw) rA rB hprov hprovs)

theorem resolveEntry_called (db : DB) {e : Entry} {k₀ : String}
    (hreach : ReachKw db e k₀) :
    ∀ (fuel : Nat) (r r' : Record), resolveEntry db fuel e 0 r = some r' →
      ∀ p ∈ providerEntries db k₀, ∃ f' rA rB,
        resolveEntry db f' p 0 rA = some rB ∧
        recordKeys rB ⊆ recordKeys r' := by
  induction hreach with
  | @base kw hk₀ =>
    intro fuel r r' hres p hp
    cases fuel with
    | zero => cases hres
    | succ f =>
      rw [resolveEntry] at hres
      have hmono : ∀ p2 r2 r2', resolveEntry db f p2 0 r2 = some r2' →
          recordKeys r2 ⊆ recordKeys r2' :=
        fun p2 r2 r2' hc => resolveEntry_mono db f p2 0 r2 r2' hc
      obtain ⟨rA, rB, hprovs, hsub⟩ :=
        kwsF_extract db hmono e (getDependencyInfo db e 0) r r' hres kw hk₀
      obtain ⟨rA', rB', hcall, hsub2⟩ :=
        provsF_extract hmono kw e (providerEntries db kw) rA rB hprovs p hp
      exact ⟨f, rA', rB', hcall, fun x hx => hsub (hsub2 hx)⟩
  | @step kw q kw' h1 hq h3 ih =>
    intro fuel r r' hres p hp
    obtain ⟨f', rA, rB, hcall, hsub⟩ := ih fuel r r' hres q hq
    cases f' with
    | zero => cases hcall
    | succ f'' =>
      rw [resolveEntry] at hcall
      have hmono : ∀ p2 r2 r2', resolveEntry db f'' p2 0 r2 = some r2' →
          recordKeys r2 ⊆ recordKeys r2' :=
        fun p2 r2 r2' hc => resolveEntry_mono db f'' p2 0 r2 r2' hc
      obtain ⟨rA2, rB2, hprovs2, hsub2⟩ :=
        kwsF_extract db hmono q (getDependencyInfo db q 0) rA rB hcall kw' h3
      obtain ⟨rA3, rB3, hcall3, hsub3⟩ :=
        provsF_extract hmono kw' q (providerEntries db kw') rA2 rB2 hprovs2 p hp
      exact ⟨f'', rA3, rB3, hcall3,
        fun x hx => hsub (hsub2 (hsub3 hx))⟩

theorem resolveEntry_complete (db : DB) {e : Entry} {k : String}
    (hreach : ReachKw db e k) (hprov : providerEntries db k ≠ []) :
    ∀ (fuel : Nat) (r r' : Record),
      resolveEntry db fuel e 0 r = some r' → k ∈ recordKeys r' := by
  cases hreach with
  | base hk =>
    intro fuel r r' hres
    exact resolveEntry_base_complete db fuel e r r' hres k hk hprov
  | @step kw p kw' h1 hp h3 =>
    intro fuel r r' hres
    obtain ⟨f', rA, rB, hcall, hsub⟩ :=
      resolveEntry_called db h1 fuel r r' hres p hp
    exact hsub (resolveEntry_base_complete db f' p rA rB hcall _ h3 hprov)

/-! ### Resolver termination on acyclic graphs -/

theorem provsF_total (rE : Entry → Record → Option Record) (kw : String)
    (rel : Nat) (src : Entry) :
    ∀ (provs : List Entry), (∀ p ∈ provs, ∀ r, ∃ r', rE p r = some r') →
      ∀ r, ∃ r', resolveProvsF rE kw rel src provs r = some r' := by
  intro provs
  induction provs with
  | nil => intro h r; exact ⟨r, rfl⟩
  | cons p rest ih =>
    intro h r
    obtain ⟨r1, hr1⟩ := h p (List.mem_cons_self _ _) (addDependency r kw p rel src)
    obtain ⟨r', hr'⟩ := ih (fun q hq => h q (List.mem_cons_of_mem _ hq)) r1
    refine ⟨r', ?_⟩
    rw [resolveProvsF, hr1]
    exact hr'

theorem kwsF_total (db : DB) (rE : Entry → Record → Option Record) (rel : Nat)
    (src : Entry) :
    ∀ (kws : List String),
      (∀ kw ∈ kws, ∀ p ∈ providerEntries db kw, ∀ r, ∃ r', rE p r = some r') →
      ∀ r, ∃ r', resolveKwsF db rE rel src kws r = some r' := by
  intro kws
  induction kws with
  | nil => intro h r; exact ⟨r, rfl⟩
  | cons kw rest ih =>
    intro h r
    obtain ⟨r1, hr1⟩ := provsF_total rE kw rel src (providerEntries db kw)
      (fun p hp => h kw (List.mem_cons_self _ _) p hp) r
    obtain ⟨r', hr'⟩ := ih (fun kw2 hkw2 => h kw2 (List.mem_cons_of_mem _ hkw2)) r1
    refine ⟨r', ?_⟩
    rw [resolveKwsF, hr1]
    exact hr'

theorem ht_inv {db : DB} {e : Entry} {n : Nat} (h : Ht db e (n + 1)) :
    ∀ p, EStep db e p → Ht db p n := by
  cases h with
  | step h => exact h

theorem resolveEntry_total (db : DB) :
    ∀ (fuel : Nat) (e : Entry) (r : Record), Ht db e fuel →
      ∃ r', resolveEntry db fuel e 0 r = some r' := by
  intro fuel
  induction fuel with
  | zero => intro e r hht; cases hht
  | succ f ih =>
    intro e r hht
    show ∃ r', resolveKwsF db (fun p r' => resolveEntry db f p 0 r') 0 e
      (getDependencyInfo db e 0) r = some r'
    apply kwsF_total
    intro kw hkw p hp r0
    exact ih p r0 (ht_inv hht p ⟨kw, hkw, hp⟩)

theorem ht_mono (db : DB) : ∀ {e : Entry} {n : Nat}, Ht db e n → Ht db e (n + 1) := by
  intro e n h
  induction h with
  | step h ih => exact Ht.step (fun p hp => ih p hp)

theorem estep_target_mem (db : DB) {e p : Entry} (h : EStep db e p) :
    p ∈ db.entries := by
  obtain ⟨kw, _, hp⟩ := h
  rw [providerEntries] at hp
  obtain ⟨d, hd, hlook⟩ := List.mem_filterMap.mp hp
  rw [lookupEntry] at hlook
  exact List.mem_of_find?_eq_some hlook

theorem ht_up (db : DB) (hacyc : Acyclic db) :
    ∀ (k : Nat) (seen : List Entry) (e : Entry),
      seen.Nodup → seen ⊆ db.entries →
      (∀ s ∈ seen, Relation.TransGen (EStep db) s e) →
      e ∈ db.entries → e ∉ seen → db.entries.length ≤ k + seen.length →
      Ht db e (k + 1) := by
  intro k
  induction k with
  | zero =>
    intro seen e hnodup hsub htrans hemem henot hlen
    exfalso
    have hsubperm := List.subperm_of_subset hnodup hsub
    have hperm := hsubperm.perm_of_length_le (by simpa using hlen)
    exact henot (hperm.mem_iff.mpr hemem)
  | succ k ih =>
    intro seen e hnodup hsub htrans hemem henot hlen
    apply Ht.step
    intro p hstep
    have hpmem : p ∈ db.entries := estep_target_mem db hstep
    have hpnot : p ∉ e :: seen := by
      intro hcontra
      rcases List.mem_cons.mp hcontra with rfl | hp'
      · exact hacyc p (Relation.TransGen.single hstep)
      · exact hacyc p ((htrans p hp').tail hstep)
    refine ih (e :: seen) p (List.nodup_cons.mpr ⟨henot, hnodup⟩) ?_ ?_ hpmem hpnot ?_
    · intro x hx
      rcases List.mem_cons.mp hx with rfl | hx'
      · exact hemem
      · exact hsub hx'
    · intro s hs
      rcases List.mem_cons.mp hs with rfl | hs'
      · exact Relation.TransGen.single hstep
      · exact (htrans s hs').tail hstep
    · rw [List.length_cons]
      omega

theorem ht_all (db : DB) (hacyc : Acyclic db) (e : Entry) :
    Ht db e (db.entries.length + 2) := by
  by_cases hemem : e ∈ db.entries
  · have h1 : Ht db e (db.entries.length + 1) :=
      ht_up db hacyc db.entries.length [] e (by simp) (by simp)
        (by simp) hemem (by simp) (by simp)
    exact ht_mono db h1
  · apply Ht.step
    intro p hstep
    exact ht_up db hacyc db.entries.length [] p (by simp) (by simp)
      (by simp) (estep_target_mem db hstep) (by simp) (by simp)

theorem simpleGetMods_length (r : Record) (hne : ∀ kv ∈ r, kv.2 ≠ [])
    (hrel : ∀ kv ∈ r, ∀ t ∈ kv.2, t.2.2 = 0) :
    (simpleGetMods r 0).length = (recordKeys r).length := by
  induction r with
  | nil => rfl
  | cons kv rest ih =>
    obtain ⟨k, ts⟩ := kv
    have hfilter : filterRel ts 0 = ts := by
      apply List.filter_eq_self.mpr
      intro t ht
      have := hrel (k, ts) (List.mem_cons_self _ _) t ht
      simp [this]
    have hts : ts ≠ [] := hne (k, ts) (List.mem_cons_self _ _)
    cases hts2 : ts with
    | nil => exact absurd hts2 hts
    | cons t ts' =>
      rw [hts2] at hfilter
      rw [simpleGetMods, hfilter]
      show (t.1 :: simpleGetMods rest 0).length =
        (recordKeys ((k, t :: ts') :: rest)).length
      rw [List.length_cons, recordKeys_cons, List.length_cons]
      rw [ih (fun kv2 hkv2 => hne kv2 (List.mem_cons_of_mem _ hkv2))
        (fun kv2 hkv2 t2 ht2 => hrel kv2 (List.mem_cons_of_mem _ hkv2) t2 ht2)]

/-- C9: on an acyclic provide/require graph the resolution from any root
terminates (any fuel at least `|entries| + 2` returns the same record),
the accumulated record has pairwise-distinct keywords which are exactly
the keywords reachable from the root through Requires edges that have at
least one provider (unprovided keywords contribute nothing), and the
flattened installable set has exactly one entry per such keyword. -/
theorem resolveDependencies_c9 (db : DB) (root : Entry) (hacyc : Acyclic db) :
    ∃ fuel r, resolveEntry db fuel root 0 [] = some r ∧
      (∀ fuel', fuel ≤ fuel' → resolveEntry db fuel' root 0 [] = some r) ∧
      (recordKeys r).Nodup ∧
      (∀ kw, kw ∈ recordKeys r ↔
        (ReachKw db root kw ∧ providerEntries db kw ≠ [])) ∧
      getDependencyMods db fuel root = some (simpleGetMods r 0) ∧
      (simpleGetMods r 0).length = (recordKeys r).length := by
  obtain ⟨r, hres⟩ := resolveEntry_total db (db.entries.length + 2) root []
    (ht_all db hacyc root)
  have hgood : GoodR r :=
    resolveEntry_good db (db.entries.length + 2) root [] r hres
      ⟨List.nodup_nil, by simp, by simp⟩
  refine ⟨db.entries.length + 2, r, hres, ?_, hgood.1, ?_, ?_, ?_⟩
  · intro fuel' hle
    exact resolveEntry_fuel_le db hle hres
  · intro kw
    constructor
    · intro hmem
      rcases resolveEntry_sound db (db.entries.length + 2) root [] r hres kw hmem
        with h | h
      · simp [recordKeys] at h
      · exact h
    · rintro ⟨hreach, hprov⟩
      exact resolveEntry_complete db hreach hprov (db.entries.length + 2) [] r hres
  · rw [getDependencyMods, hres]
    rfl
  · exact simpleGetMods_length r hgood.2.1 hgood.2.2

theorem wDbC9_acyclic : Acyclic wDbC9 := by
  intro e h
  have hnostep : ∀ a b : Entry, ¬ EStep wDbC9 a b := by
    rintro a b ⟨kw, hkw, hp⟩
    have hpe : providerEntries wDbC9 kw = [] := rfl
    rw [hpe] at hp
    cases hp
  cases h with
  | single h' => exact hnostep _ _ h'
  | tail h1 h' => exact hnostep _ _ h'

theorem resolveDependencies_c9_witness :
    ∃ fuel r, resolveEntry wDbC9 fuel wRootC9 0 [] = some r ∧
      (∀ fuel', fuel ≤ fuel' → resolveEntry wDbC9 fuel' wRootC9 0 [] = some r) ∧
      (recordKeys r).Nodup ∧
      (∀ kw, kw ∈ recordKeys r ↔
        (ReachKw wDbC9 wRootC9 kw ∧ providerEntries wDbC9 kw ≠ [])) ∧
      getDependencyMods wDbC9 fuel wRootC9 = some (simpleGetMods r 0) ∧
      (simpleGetMods r 0).length = (recordKeys r).length :=
  resolveDependencies_c9 wDbC9 wRootC9 wDbC9_acyclic

end Yamm
